import Mathlib

/-!
Shallow embedding of the VF2 (sub)graph-isomorphism engine from
`src/algo/isomorphism.rs`.

Node identifiers are the dense indices `0 .. n` themselves (the source requires
`NodeCompactIndexable`, so `to_index` / `from_index` are bijections with the
index range; we take them to be the identity).  Machine integers (`usize`) are
modelled as `Nat`; the sentinel `usize::MAX` becomes the concrete value
`2 ^ 64 - 1` (a 64-bit target), written `usizeMAX`.  Rust's indexing panics are
unreachable on well-formed inputs; out-of-range `getD` defaults are chosen so
that the guards behave like the in-range code.  The one place the source can
actually panic, `size_hint`, is modelled with an `Option` result (`none` =
panic).  The `while let` search loop is modelled with explicit fuel: the loop
function returns `none` when the fuel is exhausted and `some` of the source's
result otherwise.
-/

namespace Vf2

/-- The sentinel `usize::MAX` for "no mapping" on a 64-bit target. -/
def usizeMAX : Nat := 2 ^ 64 - 1

/-- The graph capability surface consumed by the engine: a dense node index
space `0..n`, a directedness flag, and an edge list from which neighbor
enumeration, the edge count and the adjacency-matrix query derive. -/
structure Graph where
  n : Nat
  directed : Bool
  edges : List (Nat × Nat)
deriving DecidableEq

/-- Source `node_count()`. -/
def Graph.node_count (g : Graph) : Nat := g.n

/-- Source `edge_count()`. -/
def Graph.edge_count (g : Graph) : Nat := g.edges.length

/-- Source `neighbors_directed(v, Outgoing)`: targets of edges out of `v`;
for an undirected graph also the other endpoint of edges into `v`. -/
def Graph.neighbors_out (g : Graph) (v : Nat) : List Nat :=
  (g.edges.filterMap fun e => if e.1 == v then some e.2 else none) ++
    (if g.directed then []
     else g.edges.filterMap fun e => if e.2 == v then some e.1 else none)

/-- Source `neighbors_directed(v, Incoming)` (only queried for directed
graphs). -/
def Graph.neighbors_in (g : Graph) (v : Nat) : List Nat :=
  if g.directed then g.edges.filterMap fun e => if e.2 == v then some e.1 else none
  else g.neighbors_out v

/-- Source `is_adjacent(&matrix, a, b)`: the adjacency-matrix query; symmetric
for undirected graphs. -/
def Graph.is_adjacent (g : Graph) (a b : Nat) : Bool :=
  g.edges.any fun e => (e.1 == a && e.2 == b) || (!g.directed && e.1 == b && e.2 == a)

/-- Well-formed graph: all edge endpoints are valid node indices. -/
def Graph.WF (g : Graph) : Prop :=
  ∀ e ∈ g.edges, e.1 < g.n ∧ e.2 < g.n

/-- Source `Vf2State`: the per-graph match state.  `mapping` holds the other
graph's index or `usizeMAX`; `out` / `ins` are the generation-stamped frontier
arrays; `out_size` / `ins_size` count their non-zero entries. -/
structure Vf2State where
  graph : Graph
  mapping : List Nat
  out : List Nat
  ins : List Nat
  out_size : Nat
  ins_size : Nat
  generation : Nat
deriving DecidableEq

/-- Source `Vf2State::new`. -/
def Vf2State.new (g : Graph) : Vf2State where
  graph := g
  mapping := List.replicate g.n usizeMAX
  out := List.replicate g.n 0
  ins := List.replicate (g.n * (if g.directed then 1 else 0)) 0
  out_size := 0
  ins_size := 0
  generation := 0

/-- Source `Vf2State::is_complete`. -/
def Vf2State.is_complete (st : Vf2State) : Bool :=
  st.generation == st.mapping.length

/-- Stamp loop of `push_mapping`: every listed index whose entry is `0`
is set to the new generation `g` (array part). -/
def stampArr (g : Nat) : List Nat → List Nat → List Nat
  | [], arr => arr
  | nn :: rest, arr =>
    if arr.getD nn 1 == 0 then stampArr g rest (arr.set nn g) else stampArr g rest arr

/-- Stamp loop of `push_mapping`: how many entries it freshly stamps
(the increment applied to the frontier size). -/
def stampCount (g : Nat) : List Nat → List Nat → Nat
  | [], _ => 0
  | nn :: rest, arr =>
    if arr.getD nn 1 == 0 then stampCount g rest (arr.set nn g) + 1 else stampCount g rest arr

/-- Unstamp loop of `pop_mapping`: every listed index whose entry equals the
current generation `g` is reset to `0` (array part). -/
def unstampArr (g : Nat) : List Nat → List Nat → List Nat
  | [], arr => arr
  | nn :: rest, arr =>
    if arr.getD nn 0 == g then unstampArr g rest (arr.set nn 0) else unstampArr g rest arr

/-- Unstamp loop of `pop_mapping`: how many entries it resets (the decrement
applied to the frontier size). -/
def unstampCount (g : Nat) : List Nat → List Nat → Nat
  | [], _ => 0
  | nn :: rest, arr =>
    if arr.getD nn 0 == g then unstampCount g rest (arr.set nn 0) + 1 else unstampCount g rest arr

/-- Source `Vf2State::push_mapping(from, to)`: bump the generation, record the
mapping, and stamp the out- (and, if directed, in-) neighbors of `fr`. -/
def Vf2State.push_mapping (st : Vf2State) (fr tn : Nat) : Vf2State :=
  let gen := st.generation + 1
  let outN := st.graph.neighbors_out fr
  let base : Vf2State :=
    { st with
      generation := gen
      mapping := st.mapping.set fr tn
      out := stampArr gen outN st.out
      out_size := st.out_size + stampCount gen outN st.out }
  if st.graph.directed then
    let inN := st.graph.neighbors_in fr
    { base with
      ins := stampArr gen inN st.ins
      ins_size := st.ins_size + stampCount gen inN st.ins }
  else base

/-- Source `Vf2State::pop_mapping(from)`: clear the mapping slot, unstamp the
entries stamped at the current generation, and decrement the generation. -/
def Vf2State.pop_mapping (st : Vf2State) (fr : Nat) : Vf2State :=
  let g := st.generation
  let outN := st.graph.neighbors_out fr
  let base : Vf2State :=
    { st with
      mapping := st.mapping.set fr usizeMAX
      out := unstampArr g outN st.out
      out_size := st.out_size - unstampCount g outN st.out }
  let base2 : Vf2State :=
    if st.graph.directed then
      let inN := st.graph.neighbors_in fr
      { base with
        ins := unstampArr g inN st.ins
        ins_size := st.ins_size - unstampCount g inN st.ins }
    else base
  { base2 with generation := g - 1 }

/-- Scan of `next_out_index` / `next_in_index`: walk the slice `arr[fromIdx..]`
(passed as the dropped list) looking for the first relative index `i` whose
stamp is positive and whose node is unmapped. -/
def frontierScanGo (mapping : List Nat) (fromIdx : Nat) : List Nat → Nat → Option Nat
  | [], _ => none
  | elt :: rest, i =>
    if 0 < elt && mapping.getD (fromIdx + i) 0 == usizeMAX then some i
    else frontierScanGo mapping fromIdx rest (i + 1)

/-- Scan of `next_rest_index`: first relative index of an unmapped entry in
`mapping[fromIdx..]`. -/
def restScanGo : List Nat → Nat → Option Nat
  | [], _ => none
  | elt :: rest, i => if elt == usizeMAX then some i else restScanGo rest (i + 1)

/-- Source `Vf2State::next_out_index(from_index)`. -/
def Vf2State.next_out_index (st : Vf2State) (fromIdx : Nat) : Option Nat :=
  frontierScanGo st.mapping fromIdx (st.out.drop fromIdx) 0

/-- Source `Vf2State::next_in_index(from_index)`; `none` immediately for
undirected graphs. -/
def Vf2State.next_in_index (st : Vf2State) (fromIdx : Nat) : Option Nat :=
  if !st.graph.directed then none
  else frontierScanGo st.mapping fromIdx (st.ins.drop fromIdx) 0

/-- Source `Vf2State::next_rest_index(from_index)`. -/
def Vf2State.next_rest_index (st : Vf2State) (fromIdx : Nat) : Option Nat :=
  restScanGo (st.mapping.drop fromIdx) 0

/-- Node-matcher strategy slot: the trait's static `enabled()` plus the `eq`
predicate over the two candidate node indices (the graphs are fixed per
query, so `eq` closes over them). -/
structure NodeM where
  enabled : Bool
  eq : Nat → Nat → Bool

/-- Edge-matcher strategy slot: `eq` takes the `G0` endpoint pair first and
the `G1` endpoint pair second, as in the trait. -/
structure EdgeM where
  enabled : Bool
  eq : Nat × Nat → Nat × Nat → Bool

/-- Source `NoSemanticMatch` as a node matcher. -/
def noSemanticNM : NodeM := ⟨false, fun _ _ => true⟩

/-- Source `NoSemanticMatch` as an edge matcher. -/
def noSemanticEM : EdgeM := ⟨false, fun _ _ => true⟩

/-- Source `impl NodeMatcher for F` (`F: FnMut(&NodeWeight, &NodeWeight) ->
bool`): look up both node weights and apply the caller's predicate; if either
weight is missing the pair is incompatible. -/
def nodeMatcherEq {W0 W1 : Type} (w0 : Nat → Option W0) (w1 : Nat → Option W1)
    (p : W0 → W1 → Bool) (n0 n1 : Nat) : Bool :=
  match w0 n0, w1 n1 with
  | some x, some y => p x y
  | _, _ => false

/-- Loop body of the `r_succ!` macro: walk the outgoing neighbors of `nJ` in
its own graph, counting every neighbor; a neighbor already mapped (with the
self-loop resolved to the other candidate) whose image is not adjacent from
`nO` aborts with `none` (the macro's `return false`). -/
def rSuccGo (stJ stO : Vf2State) (nJ nO : Nat) : List Nat → Nat → Option Nat
  | [], cnt => some cnt
  | nn :: rest, cnt =>
    let m := if nJ != nn then stJ.mapping.getD nn 0 else nO
    if m == usizeMAX then rSuccGo stJ stO nJ nO rest (cnt + 1)
    else if stO.graph.is_adjacent nO m then rSuccGo stJ stO nJ nO rest (cnt + 1)
    else none

/-- Source `r_succ!(j)` with `stJ`/`nJ` the side `j` and `stO`/`nO` the other
side. -/
def rSucc (stJ stO : Vf2State) (nJ nO : Nat) : Option Nat :=
  rSuccGo stJ stO nJ nO (stJ.graph.neighbors_out nJ) 0

/-- Loop body of the `r_pred!` macro (incoming neighbors; no self-loop
substitution, adjacency queried towards `nO`). -/
def rPredGo (stJ stO : Vf2State) (nJ nO : Nat) : List Nat → Nat → Option Nat
  | [], cnt => some cnt
  | nn :: rest, cnt =>
    let m := stJ.mapping.getD nn 0
    if m == usizeMAX then rPredGo stJ stO nJ nO rest (cnt + 1)
    else if stO.graph.is_adjacent m nO then rPredGo stJ stO nJ nO rest (cnt + 1)
    else none

/-- Source `r_pred!(j)`. -/
def rPred (stJ stO : Vf2State) (nJ nO : Nat) : Option Nat :=
  rPredGo stJ stO nJ nO (stJ.graph.neighbors_in nJ) 0

/-- Outgoing half of the `edge_feasibility!` macro for one side: every mapped
outgoing neighbor's edge pair must satisfy `eqf` (first argument the side-`J`
edge, second the other side's edge). -/
def edgeAllOut (stJ : Vf2State) (nJ nO : Nat) (eqf : Nat × Nat → Nat × Nat → Bool) : Bool :=
  (stJ.graph.neighbors_out nJ).all fun nn =>
    let m := if nJ != nn then stJ.mapping.getD nn 0 else nO
    if m == usizeMAX then true else eqf (nJ, nn) (nO, m)

/-- Incoming half of the `edge_feasibility!` macro for one side. -/
def edgeAllIn (stJ : Vf2State) (nJ nO : Nat) (eqf : Nat × Nat → Nat × Nat → Bool) : Bool :=
  (stJ.graph.neighbors_in nJ).all fun nn =>
    let m := stJ.mapping.getD nn 0
    if m == usizeMAX then true else eqf (nn, nJ) (m, nO)

/-- Source `is_feasible`: the successor-cardinality gate (`r_succ!(0) >
r_succ!(1)` fails), the predecessor gate for directed graphs, then the node
and edge semantic rules, in the source's order with the source's
short-circuiting. -/
def isFeasible (st : Vf2State × Vf2State) (nodes : Nat × Nat) (nm : NodeM) (em : EdgeM) : Bool :=
  match rSucc st.1 st.2 nodes.1 nodes.2 with
  | none => false
  | some c0 =>
    match rSucc st.2 st.1 nodes.2 nodes.1 with
    | none => false
    | some c1 =>
      if c1 < c0 then false
      else if st.1.graph.directed &&
          (match rPred st.1 st.2 nodes.1 nodes.2, rPred st.2 st.1 nodes.2 nodes.1 with
           | some p0, some p1 => decide (p1 < p0)
           | _, _ => true) then false
      else if nm.enabled && !nm.eq nodes.1 nodes.2 then false
      else if em.enabled &&
          !(edgeAllOut st.1 nodes.1 nodes.2 em.eq &&
            (!st.1.graph.directed || edgeAllIn st.1 nodes.1 nodes.2 em.eq) &&
            edgeAllOut st.2 nodes.2 nodes.1 (fun a b => em.eq b a) &&
            (!st.2.graph.directed || edgeAllIn st.2 nodes.2 nodes.1 (fun a b => em.eq b a)))
        then false
      else true

/-- Source `OpenList`. -/
inductive OpenList
  | Out
  | In
  | Other
deriving DecidableEq

/-- Source `Frame`.  `nodes.1` is the `G0` node, `nodes.2` the `G1` node. -/
inductive Frame
  | Outer
  | Inner (nodes : Nat × Nat) (ol : OpenList)
  | Unwind (nodes : Nat × Nat) (ol : OpenList)
deriving DecidableEq

/-- Source `next_candidate`: try `G1`'s out-frontier (paired with `G0`'s),
then the in-frontier, then the remaining unmapped nodes, reproducing the
source's sequential reassignment of `to_index` / `from_index` / `open_list`. -/
def nextCandidate (s0 s1 : Vf2State) : Option (Nat × Nat × OpenList) :=
  let t0 : Option Nat := s1.next_out_index 0
  let p1 : Option Nat × Option Nat × OpenList :=
    if t0.isSome then (s0.next_out_index 0, t0, OpenList.Out) else (none, t0, OpenList.Out)
  let p2 : Option Nat × Option Nat × OpenList :=
    if p1.2.1.isNone || p1.1.isNone then
      let t := s1.next_in_index 0
      if t.isSome then (s0.next_in_index 0, t, OpenList.In) else (p1.1, t, p1.2.2)
    else p1
  let p3 : Option Nat × Option Nat × OpenList :=
    if p2.2.1.isNone || p2.1.isNone then
      let t := s1.next_rest_index 0
      if t.isSome then (s0.next_rest_index 0, t, OpenList.Other) else (p2.1, t, p2.2.2)
    else p2
  match p3.1, p3.2.1 with
  | some n, some m => some (n, m, p3.2.2)
  | _, _ => none

/-- Source `next_from_ix`: next `G1` candidate after `nx` in the same open
list, scanning from `nx + 1` and compensating for the slice offset. -/
def nextFromIx (s1 : Vf2State) (nx : Nat) (ol : OpenList) : Option Nat :=
  let start := nx + 1
  (match ol with
   | OpenList.Out => s1.next_out_index start
   | OpenList.In => s1.next_in_index start
   | OpenList.Other => s1.next_rest_index start).map (· + start)

/-- Source `push_state`: commit the pair into both match states. -/
def pushState (st : Vf2State × Vf2State) (nodes : Nat × Nat) : Vf2State × Vf2State :=
  (st.1.push_mapping nodes.1 nodes.2, st.2.push_mapping nodes.2 nodes.1)

/-- Source `pop_state`: roll the pair back out of both match states. -/
def popState (st : Vf2State × Vf2State) (nodes : Nat × Nat) : Vf2State × Vf2State :=
  (st.1.pop_mapping nodes.1, st.2.pop_mapping nodes.2)

/-- The look-ahead pruning rule checked after a commit (source lines 615-621):
exact mode wants both frontier sizes pairwise equal, subgraph mode wants
`G0`'s sizes bounded by `G1`'s. -/
def lookahead (sub : Bool) (s0 s1 : Vf2State) : Bool :=
  (!sub && s0.out_size == s1.out_size && s0.ins_size == s1.ins_size) ||
    (sub && decide (s0.out_size ≤ s1.out_size) && decide (s0.ins_size ≤ s1.ins_size))

/-- One iteration of the `isomorphisms` loop: process the popped `frame`
against `rest` of the stack, returning the new states, the new stack, and the
result recorded by this iteration (a complete mapping, if any). -/
def vf2Step (nm : NodeM) (em : EdgeM) (sub : Bool) (st : Vf2State × Vf2State)
    (frame : Frame) (rest : List Frame) :
    (Vf2State × Vf2State) × List Frame × Option (List Nat) :=
  match frame with
  | Frame.Unwind nodes ol =>
    let st' := popState st nodes
    match nextFromIx st'.2 nodes.2 ol with
    | none => (st', rest, none)
    | some m' => (st', Frame.Inner (nodes.1, m') ol :: rest, none)
  | Frame.Outer =>
    match nextCandidate st.1 st.2 with
    | none => (st, rest, none)
    | some (n, m, ol) => (st, Frame.Inner (n, m) ol :: rest, none)
  | Frame.Inner nodes ol =>
    if isFeasible st nodes nm em then
      let st1 := pushState st nodes
      let res := if st1.1.is_complete then some st1.1.mapping else none
      if lookahead sub st1.1 st1.2 then
        (st1, Frame.Outer :: Frame.Unwind nodes ol :: rest, res)
      else
        let st2 := popState st1 nodes
        match nextFromIx st2.2 nodes.2 ol with
        | none => (st2, rest, res)
        | some m' => (st2, Frame.Inner (nodes.1, m') ol :: rest, res)
    else
      match nextFromIx st.2 nodes.2 ol with
      | none => (st, rest, none)
      | some m' => (st, Frame.Inner (nodes.1, m') ol :: rest, none)

/-- Source `isomorphisms` as a fuel-indexed loop.  `none` means the fuel ran
out; `some (res, st, stack)` is the source's return value together with the
final mutable state.  The loop pops one frame per unit of fuel and returns as
soon as an iteration records a result. -/
def vf2Loop (nm : NodeM) (em : EdgeM) (sub : Bool) :
    Nat → Vf2State × Vf2State → List Frame →
    Option (Option (List Nat) × (Vf2State × Vf2State) × List Frame)
  | _, st, [] => some (none, st, [])
  | 0, _, _ :: _ => none
  | fuel + 1, st, f :: rest =>
    match vf2Step nm em sub st f rest with
    | (st', stack', some r) => some (some r, st', stack')
    | (st', stack', none) => vf2Loop nm em sub fuel st' stack'

/-- Source `GraphMatcher` (the matcher strategies are passed to `next`
separately, mirroring the borrowed closures). -/
structure MatcherSt where
  st : Vf2State × Vf2State
  match_subgraph : Bool
  stack : List Frame
  iter_override : Option (Option (List Nat))
deriving DecidableEq

/-- Source `GraphMatcher::new`: fresh states, a one-frame `Outer` stack, and
the one-shot override when the initial (empty) mapping is already complete. -/
def GraphMatcher.new (g0 g1 : Graph) (sub : Bool) : MatcherSt :=
  let st := (Vf2State.new g0, Vf2State.new g1)
  { st := st
    match_subgraph := sub
    stack := [Frame.Outer]
    iter_override := if st.1.is_complete then some (some st.1.mapping) else none }

/-- Source `GraphMatcher::next`: the override, when present, is returned once
(`Option::take`); otherwise resume the `isomorphisms` loop. -/
def GraphMatcher.next (fuel : Nat) (nm : NodeM) (em : EdgeM) (ms : MatcherSt) :
    Option (Option (List Nat) × MatcherSt) :=
  match ms.iter_override with
  | some ov => some (ov, { ms with iter_override := some none })
  | none =>
    (vf2Loop nm em ms.match_subgraph fuel ms.st ms.stack).map fun r =>
      (r.1, { ms with st := r.2.1, stack := r.2.2 })

/-- The `upper_bounds` table of `size_hint`: `0! .. 20!`, each successfully
converted from `u64` to a 64-bit `usize`. -/
def upperBounds : List (Option Nat) :=
  [some 1, some 1, some 2, some 6, some 24, some 120, some 720, some 5040,
   some 40320, some 362880, some 3628800, some 39916800, some 479001600,
   some 6227020800, some 87178291200, some 1307674368000, some 20922789888000,
   some 355687428096000, some 6402373705728000, some 121645100408832000,
   some 2432902008176640000]

/-- Source `GraphMatcher::size_hint`.  `none` models the Rust panic: the guard
admits `n = upper_bounds.len()` and the subsequent `upper_bounds[n]` indexes
out of bounds. -/
def GraphMatcher.sizeHint (ms : MatcherSt) : Option (Nat × Option Nat) :=
  let n := ms.st.1.graph.node_count
  if n > upperBounds.length then some (0, none)
  else
    match upperBounds.get? n with
    | some u => some (0, u)
    | none => none

/-- Source `is_isomorphic` (fuel-indexed; `none` = fuel ran out). -/
def is_isomorphic (fuel : Nat) (g0 g1 : Graph) : Option Bool :=
  if g0.node_count != g1.node_count || g0.edge_count != g1.edge_count then some false
  else
    (GraphMatcher.next fuel noSemanticNM noSemanticEM (GraphMatcher.new g0 g1 false)).map
      fun r => r.1.isSome

/-- Source `is_isomorphic_matching`: node weights, the node predicate and the
edge matcher's composed comparison are passed explicitly. -/
def is_isomorphic_matching {W0 W1 : Type} (fuel : Nat) (g0 g1 : Graph)
    (w0 : Nat → Option W0) (w1 : Nat → Option W1) (np : W0 → W1 → Bool)
    (ee : Nat × Nat → Nat × Nat → Bool) : Option Bool :=
  if g0.node_count != g1.node_count || g0.edge_count != g1.edge_count then some false
  else
    (GraphMatcher.next fuel ⟨true, nodeMatcherEq w0 w1 np⟩ ⟨true, ee⟩
        (GraphMatcher.new g0 g1 false)).map fun r => r.1.isSome

/-- Source `is_isomorphic_subgraph`. -/
def is_isomorphic_subgraph (fuel : Nat) (g0 g1 : Graph) : Option Bool :=
  if g0.node_count > g1.node_count || g0.edge_count > g1.edge_count then some false
  else
    (GraphMatcher.next fuel noSemanticNM noSemanticEM (GraphMatcher.new g0 g1 true)).map
      fun r => r.1.isSome

/-- Source `is_isomorphic_subgraph_matching`. -/
def is_isomorphic_subgraph_matching {W0 W1 : Type} (fuel : Nat) (g0 g1 : Graph)
    (w0 : Nat → Option W0) (w1 : Nat → Option W1) (np : W0 → W1 → Bool)
    (ee : Nat × Nat → Nat × Nat → Bool) : Option Bool :=
  if g0.node_count > g1.node_count || g0.edge_count > g1.edge_count then some false
  else
    (GraphMatcher.next fuel ⟨true, nodeMatcherEq w0 w1 np⟩ ⟨true, ee⟩
        (GraphMatcher.new g0 g1 true)).map fun r => r.1.isSome

/-- Source `subgraph_isomorphisms_iter`: `none` on the count precondition,
otherwise the lazy matcher in subgraph mode. -/
def subgraph_isomorphisms_iter (g0 g1 : Graph) : Option MatcherSt :=
  if g0.node_count > g1.node_count || g0.edge_count > g1.edge_count then none
  else some (GraphMatcher.new g0 g1 true)

/-- Edgeless graph on `k` nodes, used as a concrete test input. -/
def gN (k : Nat) : Graph := ⟨k, false, []⟩

/-- C9: when the caller-supplied semantic node matcher is in use and
`node_weight` returns no data for either candidate node, the match fails
closed: `eq` returns `false` regardless of the caller's predicate, so the
predicate's verdict is never consulted. -/
theorem c9_node_matcher_fail_closed {W0 W1 : Type} (w0 : Nat → Option W0)
    (w1 : Nat → Option W1) (n0 n1 : Nat) (h : w0 n0 = none ∨ w1 n1 = none) :
    ∀ p : W0 → W1 → Bool, nodeMatcherEq w0 w1 p n0 n1 = false := by
  intro p
  rcases h with h | h
  · cases hv : w1 n1 <;> simp [nodeMatcherEq, h, hv]
  · cases hv : w0 n0 <;> simp [nodeMatcherEq, h, hv]

/-- Witness for C9 at a concrete input. -/
theorem c9_node_matcher_fail_closed_witness :
    nodeMatcherEq (fun _ => (none : Option Nat)) (fun _ => (some 0 : Option Nat))
      (fun _ _ => true) 0 0 = false :=
  c9_node_matcher_fail_closed _ _ 0 0 (Or.inl rfl) _

/-- C5: `size_hint` on a 21-node `g0` hits the off-by-one in the guard
(`n > upper_bounds.len()` admits `n = 21`) and indexes `upper_bounds[21]` out
of bounds, modelled as `none` (a panic); the neighboring node counts 20 and 22
behave as the claim describes. -/
theorem c5_size_hint_out_of_bounds :
    GraphMatcher.sizeHint (GraphMatcher.new (gN 21) (gN 21) false) = none ∧
    GraphMatcher.sizeHint (GraphMatcher.new (gN 20) (gN 21) false) =
      some (0, some 2432902008176640000) ∧
    GraphMatcher.sizeHint (GraphMatcher.new (gN 22) (gN 22) false) = some (0, none) := by
  refine ⟨?_, ?_, ?_⟩ <;> decide

/-- C7: a failed count precondition makes the exact boolean queries return
`false`, the subgraph boolean queries return `false`, and the enumeration
query return no sequence, all without running the search (the conclusion holds
for every fuel, including zero) and without any error outcome. -/
theorem c7_count_preconditions {W0 W1 : Type} (g0 g1 : Graph) (fuel : Nat)
    (w0 : Nat → Option W0) (w1 : Nat → Option W1) (np : W0 → W1 → Bool)
    (ee : Nat × Nat → Nat × Nat → Bool) :
    ((g0.node_count ≠ g1.node_count ∨ g0.edge_count ≠ g1.edge_count) →
      is_isomorphic fuel g0 g1 = some false ∧
      is_isomorphic_matching fuel g0 g1 w0 w1 np ee = some false) ∧
    ((g1.node_count < g0.node_count ∨ g1.edge_count < g0.edge_count) →
      is_isomorphic_subgraph fuel g0 g1 = some false ∧
      is_isomorphic_subgraph_matching fuel g0 g1 w0 w1 np ee = some false ∧
      subgraph_isomorphisms_iter g0 g1 = none) := by
  constructor
  · intro h
    have hb : (g0.node_count != g1.node_count || g0.edge_count != g1.edge_count) = true := by
      simpa [bne_iff_ne] using h
    exact ⟨by simp [is_isomorphic, hb], by simp [is_isomorphic_matching, hb]⟩
  · intro h
    have hb : (decide (g0.node_count > g1.node_count) ||
        decide (g0.edge_count > g1.edge_count)) = true := by
      simpa [gt_iff_lt] using h
    exact ⟨by simp [is_isomorphic_subgraph, hb], by simp [is_isomorphic_subgraph_matching, hb],
      by simp [subgraph_isomorphisms_iter, hb]⟩

/-- Witness for C7 at concrete inputs. -/
theorem c7_count_preconditions_witness :
    is_isomorphic 0 (gN 1) (gN 2) = some false ∧
    is_isomorphic_subgraph 0 (gN 2) (gN 1) = some false ∧
    subgraph_isomorphisms_iter (gN 2) (gN 1) = none := by
  have h1 := (@c7_count_preconditions Nat Nat (gN 1) (gN 2) 0
    (fun _ => none) (fun _ => none) (fun _ _ => false) (fun _ _ => false)).1
    (Or.inl (by decide))
  have h2 := (@c7_count_preconditions Nat Nat (gN 2) (gN 1) 0
    (fun _ => none) (fun _ => none) (fun _ _ => false) (fun _ _ => false)).2
    (Or.inl (by decide))
  exact ⟨h1.1, h2.1, h2.2.2⟩

/-- C4: when `g0` has zero nodes, `is_isomorphic_subgraph` is `true` for every
`g1`, the enumeration query returns the matcher whose construction installed
the one-shot empty-mapping override, the first pull yields the empty mapping
(for any fuel, hence without running the `Outer`/`Inner` machinery), and the
next pull yields nothing. -/
theorem c4_empty_g0 (g0 g1 : Graph) (fuel fuel2 : Nat) (nm : NodeM) (em : EdgeM)
    (h0 : g0.n = 0) (hwf : g0.WF) :
    is_isomorphic_subgraph fuel g0 g1 = some true ∧
    subgraph_isomorphisms_iter g0 g1 = some (GraphMatcher.new g0 g1 true) ∧
    (GraphMatcher.new g0 g1 true).iter_override = some (some []) ∧
    GraphMatcher.next fuel nm em (GraphMatcher.new g0 g1 true) =
      some (some [], { GraphMatcher.new g0 g1 true with iter_override := some none }) ∧
    GraphMatcher.next fuel2 nm em { GraphMatcher.new g0 g1 true with iter_override := some none } =
      some (none, { GraphMatcher.new g0 g1 true with iter_override := some none }) := by
  have he : g0.edges = [] := by
    rw [List.eq_nil_iff_forall_not_mem]
    intro e hme
    have := (hwf e hme).1
    omega
  have hnc : g0.node_count = 0 := h0
  have hec : g0.edge_count = 0 := by simp [Graph.edge_count, he]
  have hguard : (decide (g0.node_count > g1.node_count) ||
      decide (g0.edge_count > g1.edge_count)) = false := by
    simp [hnc, hec]
  have hmap : (Vf2State.new g0).mapping = [] := by
    simp [Vf2State.new, h0]
  have hcomp : (Vf2State.new g0).is_complete = true := by
    simp [Vf2State.is_complete, hmap, Vf2State.new, h0]
  have hov : (GraphMatcher.new g0 g1 true).iter_override = some (some []) := by
    simp [GraphMatcher.new, hcomp, hmap]
  refine ⟨?_, ?_, hov, ?_, ?_⟩
  · simp [is_isomorphic_subgraph, hguard, GraphMatcher.next, hov]
  · simp [subgraph_isomorphisms_iter, hguard]
  · simp [GraphMatcher.next, hov]
  · simp [GraphMatcher.next]

/-- Witness for C4 at a concrete input. -/
theorem c4_empty_g0_witness :
    is_isomorphic_subgraph 0 (gN 0) (gN 2) = some true ∧
    GraphMatcher.next 0 noSemanticNM noSemanticEM (GraphMatcher.new (gN 0) (gN 2) true) =
      some (some [], { GraphMatcher.new (gN 0) (gN 2) true with iter_override := some none }) := by
  have h := c4_empty_g0 (gN 0) (gN 2) 0 0 noSemanticNM noSemanticEM (by decide)
    (by intro e hme; simp [gN] at hme)
  exact ⟨h.1, h.2.2.2.1⟩

/-- C2: after a feasible commit, the engine pushes `Unwind` then `Outer`
(deepening the branch) exactly when the look-ahead rule passes — equal
out- and in-frontier sizes in exact mode, `≤` in subgraph mode — and when the
rule fails the committed pair is immediately rolled back and only the next
sibling candidate (if any) is scheduled, never a deeper frame. -/
theorem c2_lookahead_deepen_iff (nm : NodeM) (em : EdgeM) (sub : Bool)
    (st : Vf2State × Vf2State) (nodes : Nat × Nat) (ol : OpenList) (rest : List Frame)
    (hfeas : isFeasible st nodes nm em = true) :
    (lookahead sub (pushState st nodes).1 (pushState st nodes).2 = true →
      vf2Step nm em sub st (Frame.Inner nodes ol) rest =
        (pushState st nodes, Frame.Outer :: Frame.Unwind nodes ol :: rest,
          if (pushState st nodes).1.is_complete then some (pushState st nodes).1.mapping
          else none)) ∧
    (lookahead sub (pushState st nodes).1 (pushState st nodes).2 = false →
      vf2Step nm em sub st (Frame.Inner nodes ol) rest =
        (popState (pushState st nodes) nodes,
          (match nextFromIx (popState (pushState st nodes) nodes).2 nodes.2 ol with
           | none => rest
           | some m' => Frame.Inner (nodes.1, m') ol :: rest),
          if (pushState st nodes).1.is_complete then some (pushState st nodes).1.mapping
          else none)) := by
  constructor
  · intro hla
    simp [vf2Step, hfeas, hla]
  · intro hla
    simp only [vf2Step, hfeas, if_true, hla, if_false, Bool.false_eq_true]
    cases hnext : nextFromIx (popState (pushState st nodes) nodes).2 nodes.2 ol <;> rfl

/-- Witness for C2 at a concrete input (feasible pair, rule passes). -/
theorem c2_lookahead_deepen_iff_witness :
    vf2Step noSemanticNM noSemanticEM false (Vf2State.new (gN 1), Vf2State.new (gN 1))
      (Frame.Inner (0, 0) OpenList.Out) [] =
      (pushState (Vf2State.new (gN 1), Vf2State.new (gN 1)) (0, 0),
        [Frame.Outer, Frame.Unwind (0, 0) OpenList.Out], some [0]) := by
  have h := (c2_lookahead_deepen_iff noSemanticNM noSemanticEM false
    (Vf2State.new (gN 1), Vf2State.new (gN 1)) (0, 0) OpenList.Out [] (by decide)).1
    (by decide)
  exact h.trans (by decide)

/-- On an empty stack the search loop returns immediately, for any fuel. -/
theorem vf2Loop_nil (nm : NodeM) (em : EdgeM) (sub : Bool) (fuel : Nat)
    (st : Vf2State × Vf2State) : vf2Loop nm em sub fuel st [] = some (none, st, []) := by
  cases fuel <;> rfl

/-- Helper for C10: the search loop returns `result = none` only after the
stack has emptied. -/
theorem vf2Loop_none_stack_empty (nm : NodeM) (em : EdgeM) (sub : Bool) :
    ∀ fuel st stack st' stack',
      vf2Loop nm em sub fuel st stack = some (none, st', stack') → stack' = [] := by
  intro fuel
  induction fuel with
  | zero =>
    intro st stack st' stack' h
    cases stack with
    | nil =>
      simp [vf2Loop] at h
      exact h.2
    | cons f rest => simp [vf2Loop] at h
  | succ fuel ih =>
    intro st stack st' stack' h
    cases stack with
    | nil =>
      simp [vf2Loop] at h
      exact h.2
    | cons f rest =>
      rw [vf2Loop] at h
      rcases hstep : vf2Step nm em sub st f rest with ⟨st2, stack2, res⟩
      rw [hstep] at h
      cases res with
      | some r => simp at h
      | none => exact ih st2 stack2 st' stack' h

/-- C10: the mapping iterator is fused: once a call to `next` returns no
mapping, every later call (any fuel) returns no mapping and leaves the
matcher state unchanged — both on the one-shot-override path and on the
emptied-stack path. -/
theorem c10_next_fused (nm : NodeM) (em : EdgeM) (fuel : Nat) (ms ms' : MatcherSt)
    (h : GraphMatcher.next fuel nm em ms = some (none, ms')) :
    ∀ fuel2, GraphMatcher.next fuel2 nm em ms' = some (none, ms') := by
  intro fuel2
  rcases ms with ⟨mst, msub, mstack, mov⟩
  cases mov with
  | some ov =>
    simp only [GraphMatcher.next] at h
    injection h with h
    injection h with h1 h2
    subst h1
    subst h2
    rfl
  | none =>
    simp only [GraphMatcher.next] at h
    rcases hloop : vf2Loop nm em msub fuel mst mstack with _ | ⟨res, st2, stack2⟩
    · rw [hloop] at h
      simp at h
    · rw [hloop] at h
      simp only [Option.map_some'] at h
      injection h with h
      injection h with h1 h2
      subst h1
      have hempty : stack2 = [] := vf2Loop_none_stack_empty nm em msub fuel mst mstack st2 stack2 hloop
      subst h2
      subst hempty
      simp [GraphMatcher.next, vf2Loop_nil]

/-- One neighbor's check in the successor rule: the neighbor is unmapped
(with the self-loop resolved to the other candidate) or its image is adjacent
from `nO` in the other graph. -/
def succMissAux (stJ stO : Vf2State) (nJ nO nn : Nat) : Bool :=
  (if nJ != nn then stJ.mapping.getD nn 0 else nO) == usizeMAX ||
    stO.graph.is_adjacent nO (if nJ != nn then stJ.mapping.getD nn 0 else nO)

/-- Miss-check of the successor rule over all outgoing neighbors of `nJ`.
This is both the check the `r_succ!` loop performs and the check the spec
describes. -/
def succMissFree (stJ stO : Vf2State) (nJ nO : Nat) : Bool :=
  (stJ.graph.neighbors_out nJ).all (succMissAux stJ stO nJ nO)

/-- Number of already-mapped outgoing neighbors of `nJ` (with the self-loop
resolved to the other candidate). -/
def mappedOutCount (stJ : Vf2State) (nJ nO : Nat) : Nat :=
  ((stJ.graph.neighbors_out nJ).filter fun nn =>
    (if nJ != nn then stJ.mapping.getD nn 0 else nO) != usizeMAX).length

/-- Modelled from the spec: the successor-cardinality rule exactly as the
claim words it — the miss-check on A's side fails immediately; in subgraph
mode the count of A's *mapped* outgoing neighbors must not exceed the
symmetric count on B's side; in exact mode the reverse (B-side) check must
also pass and the two mapped counts must be equal. -/
def claimSuccRule (sub : Bool) (st : Vf2State × Vf2State) (nodes : Nat × Nat) : Bool :=
  succMissFree st.1 st.2 nodes.1 nodes.2 &&
    (if sub then decide (mappedOutCount st.1 nodes.1 nodes.2 ≤ mappedOutCount st.2 nodes.2 nodes.1)
     else succMissFree st.2 st.1 nodes.2 nodes.1 &&
       (mappedOutCount st.1 nodes.1 nodes.2 == mappedOutCount st.2 nodes.2 nodes.1))

/-- The successor gate actually performed by `is_feasible` (its first,
mode-independent step): evaluate `r_succ!(0)` and `r_succ!(1)` and fail when
the first count exceeds the second (or either loop aborted).  The mode is not
a parameter: `is_feasible` never receives it. -/
def succGate (st : Vf2State × Vf2State) (nodes : Nat × Nat) : Bool :=
  match rSucc st.1 st.2 nodes.1 nodes.2 with
  | none => false
  | some c0 =>
    match rSucc st.2 st.1 nodes.2 nodes.1 with
    | none => false
    | some c1 => if c1 < c0 then false else true

/-- Characterization of the `r_succ!` loop: it aborts exactly when the
miss-check fails, and otherwise counts the whole neighbor list. -/
theorem rSuccGo_eq (stJ stO : Vf2State) (nJ nO : Nat) :
    ∀ l cnt, rSuccGo stJ stO nJ nO l cnt =
      (if l.all (succMissAux stJ stO nJ nO) then some (cnt + l.length) else none) := by
  intro l
  induction l with
  | nil => intro cnt; simp [rSuccGo]
  | cons nn rest ih =>
    intro cnt
    rw [List.all_cons]
    cases hm : (if nJ != nn then stJ.mapping.getD nn 0 else nO) == usizeMAX with
    | true =>
      have hlhs : rSuccGo stJ stO nJ nO (nn :: rest) cnt =
          rSuccGo stJ stO nJ nO rest (cnt + 1) := by
        simp only [rSuccGo, hm, if_true]
      have hP : succMissAux stJ stO nJ nO nn = true := by
        rw [succMissAux, hm, Bool.true_or]
      rw [hlhs, ih, hP, Bool.true_and, List.length_cons]
      by_cases hall : rest.all (succMissAux stJ stO nJ nO) = true
      · rw [if_pos hall, if_pos hall]
        congr 1
        omega
      · rw [if_neg hall, if_neg hall]
    | false =>
      cases ha : stO.graph.is_adjacent nO (if nJ != nn then stJ.mapping.getD nn 0 else nO) with
      | true =>
        have hlhs : rSuccGo stJ stO nJ nO (nn :: rest) cnt =
            rSuccGo stJ stO nJ nO rest (cnt + 1) := by
          simp only [rSuccGo, hm, Bool.false_eq_true, if_false, ha, if_true]
        have hP : succMissAux stJ stO nJ nO nn = true := by
          rw [succMissAux, hm, ha, Bool.false_or]
        rw [hlhs, ih, hP, Bool.true_and, List.length_cons]
        by_cases hall : rest.all (succMissAux stJ stO nJ nO) = true
        · rw [if_pos hall, if_pos hall]
          congr 1
          omega
        · rw [if_neg hall, if_neg hall]
      | false =>
        have hlhs : rSuccGo stJ stO nJ nO (nn :: rest) cnt = none := by
          simp only [rSuccGo, hm, Bool.false_eq_true, if_false, ha]
        have hP : succMissAux stJ stO nJ nO nn = false := by
          rw [succMissAux, hm, ha, Bool.false_or]
        rw [hlhs, hP, Bool.false_and]
        rw [if_neg (by simp)]

/-- The `rSucc` entry point in terms of the miss-check and the neighbor-list
length. -/
theorem rSucc_eq (stJ stO : Vf2State) (nJ nO : Nat) :
    rSucc stJ stO nJ nO =
      (if succMissFree stJ stO nJ nO then some (stJ.graph.neighbors_out nJ).length
       else none) := by
  rw [rSucc, rSuccGo_eq, succMissFree, Nat.zero_add]

/-- Counterexample to C1 as stated: with `g0` a directed out-star of degree 2,
`g1` a single directed edge, empty partial mapping and candidate pair
`(0, 0)` in exact-isomorphism mode, the claim's rule (mapped-neighbor counts,
both `0`, equal; no misses) accepts the pair, but the code's successor gate —
and hence `is_feasible` — rejects it, because the code compares full
out-neighbor counts (`2 > 1`). -/
theorem c1_succ_rule_counterexample :
    claimSuccRule false
      (Vf2State.new ⟨3, true, [(0, 1), (0, 2)]⟩, Vf2State.new ⟨2, true, [(0, 1)]⟩)
      (0, 0) = true ∧
    succGate
      (Vf2State.new ⟨3, true, [(0, 1), (0, 2)]⟩, Vf2State.new ⟨2, true, [(0, 1)]⟩)
      (0, 0) = false ∧
    isFeasible
      (Vf2State.new ⟨3, true, [(0, 1), (0, 2)]⟩, Vf2State.new ⟨2, true, [(0, 1)]⟩)
      (0, 0) noSemanticNM noSemanticEM = false := by
  refine ⟨by decide, by decide, by decide⟩

/-- C1 amended: the successor gate of `is_feasible` is mode-independent; it
passes exactly when the miss-check over already-mapped outgoing neighbors
passes on *both* sides and the count of *all* outgoing neighbors of `node_a`
does not exceed that of `node_b`; and passing it is necessary for
feasibility. -/
theorem c1_succ_rule_amended (st : Vf2State × Vf2State) (nodes : Nat × Nat)
    (nm : NodeM) (em : EdgeM) :
    succGate st nodes =
      (succMissFree st.1 st.2 nodes.1 nodes.2 && succMissFree st.2 st.1 nodes.2 nodes.1 &&
        decide ((st.1.graph.neighbors_out nodes.1).length ≤
          (st.2.graph.neighbors_out nodes.2).length)) ∧
    (isFeasible st nodes nm em = true → succGate st nodes = true) := by
  constructor
  · rw [succGate, rSucc_eq, rSucc_eq]
    cases h0 : succMissFree st.1 st.2 nodes.1 nodes.2 with
    | false => simp [h0]
    | true =>
      cases h1 : succMissFree st.2 st.1 nodes.2 nodes.1 with
      | false => simp [h1]
      | true =>
        simp only [if_true, Bool.true_and]
        by_cases hle : (st.1.graph.neighbors_out nodes.1).length ≤
            (st.2.graph.neighbors_out nodes.2).length
        · rw [if_neg (Nat.not_lt.mpr hle), decide_eq_true hle]
        · rw [if_pos (Nat.lt_of_not_le hle)]
          rw [decide_eq_false hle]
  · intro hf
    rw [succGate]
    rw [isFeasible] at hf
    split at hf
    next => exact absurd hf (by simp)
    next c0 h0 =>
      split at hf
      next => exact absurd hf (by simp)
      next c1 h1 =>
        by_cases hlt : c1 < c0
        · rw [if_pos hlt] at hf
          exact absurd hf (by simp)
        · rw [if_neg hlt]

/-- Witness for the amended C1 at a concrete feasible input. -/
theorem c1_succ_rule_amended_witness :
    succGate (Vf2State.new (gN 1), Vf2State.new (gN 1)) (0, 0) = true :=
  (c1_succ_rule_amended (Vf2State.new (gN 1), Vf2State.new (gN 1)) (0, 0)
    noSemanticNM noSemanticEM).2 (by decide)

/-- Reading an updated list: the written value inside bounds, the old value
elsewhere. -/
theorem getD_set_ite (l : List Nat) (i j v d : Nat) :
    (l.set i v).getD j d = if i = j ∧ i < l.length then v else l.getD j d := by
  rw [List.getD_eq_getElem?_getD, List.getElem?_set]
  by_cases h : i = j
  · rw [if_pos h]
    by_cases h2 : i < l.length
    · rw [if_pos h2, if_pos ⟨h, h2⟩, Option.getD_some]
    · rw [if_neg h2, if_neg (fun hc => h2 hc.2), Option.getD_none,
        List.getD_eq_default _ _ (h ▸ Nat.le_of_not_lt h2)]
  · rw [if_neg h, if_neg (fun hc => h hc.1), List.getD_eq_getElem?_getD]

/-- Writing a value a list already holds does nothing. -/
theorem set_of_getD (l : List Nat) (i v : Nat) (hi : i < l.length)
    (h : l.getD i 0 = v) : l.set i v = l := by
  apply List.ext_getElem (List.length_set l i v)
  intro j h1 h2
  rw [List.getElem_set]
  split
  next heq =>
    subst heq
    rw [← h, List.getD_eq_getElem _ _ hi]
  next => rfl

/-- The stamp loop preserves the array length. -/
theorem stampArr_length (g : Nat) : ∀ (ns arr : List Nat),
    (stampArr g ns arr).length = arr.length := by
  intro ns
  induction ns with
  | nil => intro arr; rfl
  | cons nn rest ih =>
    intro arr
    rw [stampArr]
    split
    · rw [ih, List.length_set]
    · rw [ih]

/-- The unstamp loop preserves the array length. -/
theorem unstampArr_length (g : Nat) : ∀ (ns arr : List Nat),
    (unstampArr g ns arr).length = arr.length := by
  intro ns
  induction ns with
  | nil => intro arr; rfl
  | cons nn rest ih =>
    intro arr
    rw [unstampArr]
    split
    · rw [ih, List.length_set]
    · rw [ih]

/-- Pointwise description of the stamp loop: a listed zero entry becomes `g`,
everything else is untouched. -/
theorem stampArr_getD (g : Nat) (hg : 0 < g) : ∀ (ns arr : List Nat) (i : Nat),
    (stampArr g ns arr).getD i 0 =
      if i ∈ ns ∧ arr.getD i 1 = 0 then g else arr.getD i 0 := by
  intro ns
  induction ns with
  | nil =>
    intro arr i
    rw [stampArr, if_neg (fun hc => List.not_mem_nil i hc.1)]
  | cons nn rest ih =>
    intro arr i
    rw [stampArr]
    by_cases hc : arr.getD nn 1 = 0
    · have hlt : nn < arr.length := by
        by_contra hnn
        rw [List.getD_eq_default _ _ (Nat.le_of_not_lt hnn)] at hc
        exact one_ne_zero hc
      rw [if_pos (by simpa using hc), ih]
      by_cases hi : i = nn
      · subst hi
        have h1 : (arr.set i g).getD i 1 = g := by
          rw [getD_set_ite, if_pos ⟨rfl, hlt⟩]
        have h0 : (arr.set i g).getD i 0 = g := by
          rw [getD_set_ite, if_pos ⟨rfl, hlt⟩]
        rw [h1, h0, if_neg (fun hcon : i ∈ rest ∧ g = 0 =>
            absurd hcon.2 (Ne.symm (Nat.ne_of_lt hg))),
          if_pos ⟨List.mem_cons_self i rest, hc⟩]
      · have hset1 : (arr.set nn g).getD i 1 = arr.getD i 1 := by
          rw [getD_set_ite, if_neg (fun hcon => hi hcon.1.symm)]
        have hset0 : (arr.set nn g).getD i 0 = arr.getD i 0 := by
          rw [getD_set_ite, if_neg (fun hcon => hi hcon.1.symm)]
        rw [hset1, hset0]
        by_cases hmem : i ∈ rest ∧ arr.getD i 1 = 0
        · rw [if_pos hmem, if_pos ⟨List.mem_cons_of_mem nn hmem.1, hmem.2⟩]
        · rw [if_neg hmem,
            if_neg (fun hcon : i ∈ nn :: rest ∧ arr.getD i 1 = 0 =>
              hmem ⟨(List.mem_cons.mp hcon.1).resolve_left hi, hcon.2⟩)]
    · rw [if_neg (by simpa using hc), ih]
      by_cases hi : i = nn
      · subst hi
        rw [if_neg (fun hcon => hc hcon.2), if_neg (fun hcon => hc hcon.2)]
      · by_cases hmem : i ∈ rest ∧ arr.getD i 1 = 0
        · rw [if_pos hmem, if_pos ⟨List.mem_cons_of_mem nn hmem.1, hmem.2⟩]
        · rw [if_neg hmem,
            if_neg (fun hcon : i ∈ nn :: rest ∧ arr.getD i 1 = 0 =>
              hmem ⟨(List.mem_cons.mp hcon.1).resolve_left hi, hcon.2⟩)]

/-- Pointwise description of the unstamp loop: a listed entry holding `g` is
reset to `0`, everything else is untouched. -/
theorem unstampArr_getD (g : Nat) (hg : 0 < g) : ∀ (ns brr : List Nat) (i : Nat),
    (unstampArr g ns brr).getD i 0 =
      if i ∈ ns ∧ brr.getD i 0 = g then 0 else brr.getD i 0 := by
  intro ns
  induction ns with
  | nil =>
    intro brr i
    rw [unstampArr, if_neg (fun hc => List.not_mem_nil i hc.1)]
  | cons nn rest ih =>
    intro brr i
    rw [unstampArr]
    by_cases hc : brr.getD nn 0 = g
    · have hlt : nn < brr.length := by
        by_contra hnn
        rw [List.getD_eq_default _ _ (Nat.le_of_not_lt hnn)] at hc
        exact Nat.lt_irrefl 0 (hc ▸ hg)
      rw [if_pos (by simpa using hc), ih]
      by_cases hi : i = nn
      · subst hi
        have h0 : (brr.set i 0).getD i 0 = 0 := by
          rw [getD_set_ite, if_pos ⟨rfl, hlt⟩]
        rw [h0, if_neg (fun hcon : i ∈ rest ∧ 0 = g =>
            absurd hcon.2 (Nat.ne_of_lt hg)),
          if_pos ⟨List.mem_cons_self i rest, hc⟩]
      · have hset0 : (brr.set nn 0).getD i 0 = brr.getD i 0 := by
          rw [getD_set_ite, if_neg (fun hcon => hi hcon.1.symm)]
        rw [hset0]
        by_cases hmem : i ∈ rest ∧ brr.getD i 0 = g
        · rw [if_pos hmem, if_pos ⟨List.mem_cons_of_mem nn hmem.1, hmem.2⟩]
        · rw [if_neg hmem,
            if_neg (fun hcon : i ∈ nn :: rest ∧ brr.getD i 0 = g =>
              hmem ⟨(List.mem_cons.mp hcon.1).resolve_left hi, hcon.2⟩)]
    · rw [if_neg (by simpa using hc), ih]
      by_cases hi : i = nn
      · subst hi
        rw [if_neg (fun hcon => hc hcon.2), if_neg (fun hcon => hc hcon.2)]
      · by_cases hmem : i ∈ rest ∧ brr.getD i 0 = g
        · rw [if_pos hmem, if_pos ⟨List.mem_cons_of_mem nn hmem.1, hmem.2⟩]
        · rw [if_neg hmem,
            if_neg (fun hcon : i ∈ nn :: rest ∧ brr.getD i 0 = g =>
              hmem ⟨(List.mem_cons.mp hcon.1).resolve_left hi, hcon.2⟩)]

/-- The stamp loop's count equals the number of distinct listed indices whose
entry is zero. -/
theorem stampCount_eq (g : Nat) (hg : 0 < g) : ∀ (ns arr : List Nat),
    stampCount g ns arr = (ns.toFinset.filter fun i => arr.getD i 1 = 0).card := by
  intro ns
  induction ns with
  | nil => intro arr; simp [stampCount]
  | cons nn rest ih =>
    intro arr
    rw [stampCount, List.toFinset_cons, Finset.filter_insert]
    by_cases hc : arr.getD nn 1 = 0
    · have hlt : nn < arr.length := by
        by_contra hnn
        rw [List.getD_eq_default _ _ (Nat.le_of_not_lt hnn)] at hc
        exact one_ne_zero hc
      rw [if_pos (by simpa using hc), if_pos hc, ih]
      have hfe : (rest.toFinset.filter fun i => (arr.set nn g).getD i 1 = 0) =
          (rest.toFinset.filter fun i => arr.getD i 1 = 0).erase nn := by
        apply Finset.ext
        intro j
        rw [Finset.mem_filter, Finset.mem_erase, Finset.mem_filter]
        constructor
        · intro ⟨hj, hval⟩
          rcases eq_or_ne j nn with rfl | hne
          · rw [getD_set_ite, if_pos ⟨rfl, hlt⟩] at hval
            exact absurd hval.symm (Nat.ne_of_lt hg)
          · rw [getD_set_ite, if_neg (fun hcon => hne hcon.1.symm)] at hval
            exact ⟨hne, hj, hval⟩
        · intro ⟨hne, hj, hval⟩
          refine ⟨hj, ?_⟩
          rw [getD_set_ite, if_neg (fun hcon => hne hcon.1.symm)]
          exact hval
      rw [hfe]
      set F := rest.toFinset.filter fun i => arr.getD i 1 = 0 with hF
      by_cases hmem : nn ∈ F
      · rw [Finset.card_erase_of_mem hmem, Finset.insert_eq_self.mpr hmem]
        have : 1 ≤ F.card := Finset.card_pos.mpr ⟨nn, hmem⟩
        omega
      · rw [Finset.erase_eq_of_not_mem hmem, Finset.card_insert_of_not_mem hmem]
    · rw [if_neg (by simpa using hc), if_neg hc, ih]

/-- The unstamp loop's count equals the number of distinct listed indices
whose entry equals `g`. -/
theorem unstampCount_eq (g : Nat) (hg : 0 < g) : ∀ (ns brr : List Nat),
    unstampCount g ns brr = (ns.toFinset.filter fun i => brr.getD i 0 = g).card := by
  intro ns
  induction ns with
  | nil => intro brr; simp [unstampCount]
  | cons nn rest ih =>
    intro brr
    rw [unstampCount, List.toFinset_cons, Finset.filter_insert]
    by_cases hc : brr.getD nn 0 = g
    · have hlt : nn < brr.length := by
        by_contra hnn
        rw [List.getD_eq_default _ _ (Nat.le_of_not_lt hnn)] at hc
        exact Nat.lt_irrefl 0 (hc ▸ hg)
      have hcb : (brr.getD nn 0 == g) = true := by simpa using hc
      rw [if_pos hcb, if_pos hc, ih]
      have hfe : (rest.toFinset.filter fun i => (brr.set nn 0).getD i 0 = g) =
          (rest.toFinset.filter fun i => brr.getD i 0 = g).erase nn := by
        apply Finset.ext
        intro j
        rw [Finset.mem_filter, Finset.mem_erase, Finset.mem_filter]
        constructor
        · intro ⟨hj, hval⟩
          rcases eq_or_ne j nn with rfl | hne
          · rw [getD_set_ite, if_pos ⟨rfl, hlt⟩] at hval
            exact absurd hval (Nat.ne_of_lt hg)
          · rw [getD_set_ite, if_neg (fun hcon => hne hcon.1.symm)] at hval
            exact ⟨hne, hj, hval⟩
        · intro ⟨hne, hj, hval⟩
          refine ⟨hj, ?_⟩
          rw [getD_set_ite, if_neg (fun hcon => hne hcon.1.symm)]
          exact hval
      rw [hfe]
      set F := rest.toFinset.filter fun i => brr.getD i 0 = g with hF
      by_cases hmem : nn ∈ F
      · rw [Finset.card_erase_of_mem hmem, Finset.insert_eq_self.mpr hmem]
        have : 1 ≤ F.card := Finset.card_pos.mpr ⟨nn, hmem⟩
        omega
      · rw [Finset.erase_eq_of_not_mem hmem, Finset.card_insert_of_not_mem hmem]
    · have hcb : ¬ ((brr.getD nn 0 == g) = true) := by simpa using hc
      rw [if_neg hcb, if_neg hc, ih]

/-- Round trip for the stamp arrays: if no entry already holds the new
generation, unstamping right after stamping restores the array. -/
theorem unstamp_stamp_arr (g : Nat) (hg : 0 < g) (ns arr : List Nat)
    (h : ∀ i, arr.getD i 0 ≠ g) :
    unstampArr g ns (stampArr g ns arr) = arr := by
  apply List.ext_getElem
  · rw [unstampArr_length, stampArr_length]
  · intro i h1 h2
    have hlen : i < (unstampArr g ns (stampArr g ns arr)).length := h1
    rw [← List.getD_eq_getElem _ 0 hlen, ← List.getD_eq_getElem _ 0 h2]
    rw [unstampArr_getD g hg, stampArr_getD g hg]
    by_cases hc : i ∈ ns ∧ arr.getD i 1 = 0
    · rw [if_pos hc, if_pos ⟨hc.1, rfl⟩]
      have hi : i < arr.length := by
        by_contra hnn
        rw [List.getD_eq_default _ _ (Nat.le_of_not_lt hnn)] at hc
        exact one_ne_zero hc.2
      rw [List.getD_eq_getElem _ 1 hi] at hc
      rw [List.getD_eq_getElem _ 0 hi, ← hc.2]
    · rw [if_neg hc, if_neg (fun hcon => h i hcon.2)]

/-- Round trip for the frontier counts: under the same hypothesis the unstamp
loop removes exactly as many stamps as the stamp loop added. -/
theorem unstamp_stamp_count (g : Nat) (hg : 0 < g) (ns arr : List Nat)
    (h : ∀ i, arr.getD i 0 ≠ g) :
    unstampCount g ns (stampArr g ns arr) = stampCount g ns arr := by
  rw [unstampCount_eq g hg, stampCount_eq g hg]
  congr 1
  apply Finset.filter_congr
  intro i hi
  rw [List.mem_toFinset] at hi
  rw [stampArr_getD g hg]
  by_cases hc : i ∈ ns ∧ arr.getD i 1 = 0
  · rw [if_pos hc]
    exact iff_of_true rfl hc.2
  · rw [if_neg hc]
    exact iff_of_false (h i) (fun hx => hc ⟨hi, hx⟩)

/-- Reachability invariant used for rollback: every frontier stamp is at most
the current generation (fresh states satisfy it, commits preserve it). -/
def Vf2WF (st : Vf2State) : Prop :=
  (∀ x ∈ st.out, x ≤ st.generation) ∧ (∀ x ∈ st.ins, x ≤ st.generation)

instance (st : Vf2State) : Decidable (Vf2WF st) :=
  inferInstanceAs (Decidable ((∀ x ∈ st.out, x ≤ st.generation) ∧
    (∀ x ∈ st.ins, x ≤ st.generation)))

/-- A stamp array bounded by the generation never holds the next
generation. -/
theorem getD_ne_of_all_le (l : List Nat) (gen : Nat) (h : ∀ x ∈ l, x ≤ gen) :
    ∀ i, l.getD i 0 ≠ gen + 1 := by
  intro i
  by_cases hi : i < l.length
  · rw [List.getD_eq_getElem _ _ hi]
    have := h _ (List.getElem_mem hi)
    omega
  · rw [List.getD_eq_default _ _ (Nat.le_of_not_lt hi)]
    omega

/-- Rolling back right after a commit of an in-range, unmapped node restores
the match state exactly. -/
theorem push_pop_roundtrip (st : Vf2State) (n m : Nat) (hwf : Vf2WF st)
    (hn : n < st.mapping.length) (hm : st.mapping.getD n 0 = usizeMAX) :
    (st.push_mapping n m).pop_mapping n = st := by
  rcases st with ⟨gr, mp, outA, insA, osz, isz, gen⟩
  rcases hwf with ⟨hwo, hwi⟩
  have hgpos : 0 < gen + 1 := Nat.succ_pos gen
  have hno : ∀ i, outA.getD i 0 ≠ gen + 1 := getD_ne_of_all_le outA gen hwo
  have hni : ∀ i, insA.getD i 0 ≠ gen + 1 := getD_ne_of_all_le insA gen hwi
  have hmp : (mp.set n m).set n usizeMAX = mp := by
    rw [List.set_set]
    exact set_of_getD mp n usizeMAX hn hm
  cases hd : gr.directed with
  | false =>
    simp only [Vf2State.push_mapping, Vf2State.pop_mapping, hd, Bool.false_eq_true, if_false]
    simp only [Vf2State.mk.injEq]
    refine ⟨trivial, hmp, ?_, trivial, ?_, trivial, Nat.add_sub_cancel gen 1⟩
    · exact unstamp_stamp_arr (gen + 1) hgpos _ outA hno
    · rw [unstamp_stamp_count (gen + 1) hgpos _ outA hno, Nat.add_sub_cancel]
  | true =>
    simp only [Vf2State.push_mapping, Vf2State.pop_mapping, hd, if_true]
    simp only [Vf2State.mk.injEq]
    refine ⟨trivial, hmp, ?_, ?_, ?_, ?_, Nat.add_sub_cancel gen 1⟩
    · exact unstamp_stamp_arr (gen + 1) hgpos _ outA hno
    · exact unstamp_stamp_arr (gen + 1) hgpos _ insA hni
    · rw [unstamp_stamp_count (gen + 1) hgpos _ outA hno, Nat.add_sub_cancel]
    · rw [unstamp_stamp_count (gen + 1) hgpos _ insA hni, Nat.add_sub_cancel]

/-- A commit preserves the stamp bound: new stamps carry the new
generation. -/
theorem Vf2WF_push (st : Vf2State) (n m : Nat) (hwf : Vf2WF st) :
    Vf2WF (st.push_mapping n m) := by
  rcases st with ⟨gr, mp, outA, insA, osz, isz, gen⟩
  rcases hwf with ⟨hwo, hwi⟩
  have hgpos : 0 < gen + 1 := Nat.succ_pos gen
  have key : ∀ (ns : List Nat) (arr : List Nat), (∀ x ∈ arr, x ≤ gen) →
      ∀ x ∈ stampArr (gen + 1) ns arr, x ≤ gen + 1 := by
    intro ns arr hold x hx
    obtain ⟨i, hi, hxi⟩ := List.getElem_of_mem hx
    rw [← List.getD_eq_getElem _ 0 hi, stampArr_getD (gen + 1) hgpos] at hxi
    by_cases hc : i ∈ ns ∧ arr.getD i 1 = 0
    · rw [if_pos hc] at hxi
      omega
    · rw [if_neg hc] at hxi
      by_cases hil : i < arr.length
      · rw [List.getD_eq_getElem _ 0 hil] at hxi
        have := hold _ (hxi ▸ List.getElem_mem hil)
        omega
      · rw [List.getD_eq_default _ _ (Nat.le_of_not_lt hil)] at hxi
        omega
  cases hd : gr.directed with
  | false =>
    simp only [Vf2State.push_mapping, hd, Bool.false_eq_true, if_false]
    constructor
    · exact key _ outA hwo
    · intro x hx
      exact Nat.le_succ_of_le (hwi x hx)
  | true =>
    simp only [Vf2State.push_mapping, hd, if_true]
    constructor
    · exact key _ outA hwo
    · exact key _ insA hwi

/-- Commit / rollback operations, as issued by the search engine. -/
inductive Vf2Op where
  | push (n m : Nat)
  | pop (n : Nat)

/-- Run a sequence of commit / rollback operations on a match state. -/
def execOps (st : Vf2State) : List Vf2Op → Vf2State
  | [] => st
  | Vf2Op.push n m :: rest => execOps (st.push_mapping n m) rest
  | Vf2Op.pop n :: rest => execOps (st.pop_mapping n) rest

/-- Execution distributes over concatenation. -/
theorem execOps_append (st : Vf2State) (a b : List Vf2Op) :
    execOps st (a ++ b) = execOps (execOps st a) b := by
  induction a generalizing st with
  | nil => rfl
  | cons op rest ih =>
    cases op with
    | push n m => rw [List.cons_append, execOps, execOps, ih]
    | pop n => rw [List.cons_append, execOps, execOps, ih]

/-- Well-nested commit / rollback sequences: every commit is of an in-range,
currently unmapped node, is matched by the rollback of the same node, and the
operations in between (and after) are themselves well nested.  Such a
sequence returns the generation to its initial value. -/
inductive OkSeq : Vf2State → List Vf2Op → Prop where
  | nil (st : Vf2State) : OkSeq st []
  | node (st : Vf2State) (n m : Nat) (inner rest : List Vf2Op)
      (hn : n < st.mapping.length)
      (hm : st.mapping.getD n 0 = usizeMAX)
      (hinner : OkSeq (st.push_mapping n m) inner)
      (hrest : OkSeq st rest) :
      OkSeq st (Vf2Op.push n m :: (inner ++ Vf2Op.pop n :: rest))

/-- C3: for every match state whose stamps are bounded by its generation (as
in any reachable state) and every well-nested sequence of
`push_mapping` / `pop_mapping` operations — which returns `generation` to its
initial value — the whole state (mapping, both stamp arrays, both frontier
counts, generation) is restored exactly; `pop_mapping n` right after
`push_mapping n m` is the singly-nested special case. -/
theorem c3_rollback_roundtrip (st : Vf2State) (ops : List Vf2Op)
    (hok : OkSeq st ops) (hwf : Vf2WF st) : execOps st ops = st := by
  induction hok with
  | nil st => rfl
  | node st n m inner rest hn hm hinner hrest ih1 ih2 =>
    rw [execOps, execOps_append, ih1 (Vf2WF_push st n m hwf), execOps,
      push_pop_roundtrip st n m hwf hn hm]
    exact ih2 hwf

/-- Witness for C3 at a concrete input: commit then roll back on a 2-node
path graph. -/
theorem c3_rollback_roundtrip_witness :
    execOps (Vf2State.new ⟨2, false, [(0, 1)]⟩) [Vf2Op.push 0 1, Vf2Op.pop 0] =
      Vf2State.new ⟨2, false, [(0, 1)]⟩ :=
  c3_rollback_roundtrip _ _
    (OkSeq.node _ 0 1 [] [] (by decide) (by decide) (OkSeq.nil _) (OkSeq.nil _))
    (by decide)

/-- The unmapped sentinel is positive. -/
theorem usizeMAX_pos : 0 < usizeMAX := by decide

/-- A `getD` that differs from the default is an in-range read. -/
theorem lt_length_of_getD_ne (l : List Nat) (i d : Nat) (h : l.getD i d ≠ d) :
    i < l.length := by
  by_contra hn
  rw [List.getD_eq_default _ _ (Nat.le_of_not_lt hn)] at h
  exact h rfl

/-- A successful frontier scan returns an index at or past the start, within
the slice, whose node is unmapped. -/
theorem frontierScanGo_some (mapping : List Nat) (f : Nat) :
    ∀ (l : List Nat) (i j : Nat), frontierScanGo mapping f l i = some j →
      i ≤ j ∧ j - i < l.length ∧ mapping.getD (f + j) 0 = usizeMAX := by
  intro l
  induction l with
  | nil => intro i j h; exact absurd h (by rw [frontierScanGo]; exact Option.noConfusion)
  | cons elt rest ih =>
    intro i j h
    rw [frontierScanGo] at h
    by_cases hc : (0 < elt && mapping.getD (f + i) 0 == usizeMAX) = true
    · rw [if_pos hc] at h
      injection h with h
      subst h
      rw [Bool.and_eq_true] at hc
      refine ⟨Nat.le_refl i, by simp, ?_⟩
      simpa using hc.2
    · rw [if_neg hc] at h
      obtain ⟨h1, h2, h3⟩ := ih (i + 1) j h
      exact ⟨Nat.le_of_succ_le h1, by simp; omega, h3⟩

/-- A successful rest scan returns an index at or past the start whose slice
entry is the unmapped sentinel. -/
theorem restScanGo_some :
    ∀ (l : List Nat) (i j : Nat), restScanGo l i = some j →
      i ≤ j ∧ j - i < l.length ∧ l.getD (j - i) 0 = usizeMAX := by
  intro l
  induction l with
  | nil => intro i j h; exact absurd h (by rw [restScanGo]; exact Option.noConfusion)
  | cons elt rest ih =>
    intro i j h
    rw [restScanGo] at h
    by_cases hc : (elt == usizeMAX) = true
    · rw [if_pos hc] at h
      injection h with h
      subst h
      refine ⟨Nat.le_refl i, by simp, ?_⟩
      rw [Nat.sub_self]
      simpa using hc
    · rw [if_neg hc] at h
      obtain ⟨h1, h2, h3⟩ := ih (i + 1) j h
      refine ⟨Nat.le_of_succ_le h1, by simp; omega, ?_⟩
      have hj : j - i = (j - (i + 1)) + 1 := by omega
      rw [hj, List.getD_cons_succ]
      exact h3

/-- A successful `next_out_index` scan from `f` names an unmapped node. -/
theorem next_out_index_some (st : Vf2State) (f j : Nat)
    (h : st.next_out_index f = some j) :
    st.mapping.getD (f + j) 0 = usizeMAX ∧ f + j < st.mapping.length := by
  obtain ⟨_, _, h3⟩ := frontierScanGo_some st.mapping f _ 0 j h
  exact ⟨h3, lt_length_of_getD_ne _ _ _ (by rw [h3]; exact Nat.pos_iff_ne_zero.mp usizeMAX_pos)⟩

/-- A successful `next_in_index` scan from `f` names an unmapped node. -/
theorem next_in_index_some (st : Vf2State) (f j : Nat)
    (h : st.next_in_index f = some j) :
    st.mapping.getD (f + j) 0 = usizeMAX ∧ f + j < st.mapping.length := by
  rw [Vf2State.next_in_index] at h
  cases hd : st.graph.directed with
  | false =>
    rw [hd] at h
    simp only [Bool.not_false, if_true] at h
    exact absurd h Option.noConfusion
  | true =>
    rw [hd] at h
    simp only [Bool.not_true, Bool.false_eq_true, if_false] at h
    obtain ⟨_, _, h3⟩ := frontierScanGo_some st.mapping f _ 0 j h
    exact ⟨h3, lt_length_of_getD_ne _ _ _ (by rw [h3]; exact Nat.pos_iff_ne_zero.mp usizeMAX_pos)⟩

/-- A successful `next_rest_index` scan from `f` names an unmapped node. -/
theorem next_rest_index_some (st : Vf2State) (f j : Nat)
    (h : st.next_rest_index f = some j) :
    st.mapping.getD (f + j) 0 = usizeMAX ∧ f + j < st.mapping.length := by
  obtain ⟨_, h2, h3⟩ := restScanGo_some _ 0 j h
  rw [Nat.sub_zero] at h2 h3
  rw [List.getD_eq_getElem?_getD, List.getElem?_drop, ← List.getD_eq_getElem?_getD] at h3
  refine ⟨h3, ?_⟩
  rw [List.length_drop] at h2
  omega

/-- A successful `next_from_ix` returns a strictly larger, in-range, unmapped
`G1` node. -/
theorem nextFromIx_bound (s1 : Vf2State) (nx : Nat) (ol : OpenList) (mv : Nat)
    (h : nextFromIx s1 nx ol = some mv) :
    nx < mv ∧ mv < s1.mapping.length ∧ s1.mapping.getD mv 0 = usizeMAX := by
  cases ol with
  | Out =>
    rw [nextFromIx.eq_def] at h
    simp only [Option.map_eq_some'] at h
    obtain ⟨c, hc, hmv⟩ := h
    obtain ⟨hval, hlt⟩ := next_out_index_some s1 (nx + 1) c hc
    subst hmv
    rw [Nat.add_comm c (nx + 1)]
    exact ⟨by omega, hlt, hval⟩
  | In =>
    rw [nextFromIx.eq_def] at h
    simp only [Option.map_eq_some'] at h
    obtain ⟨c, hc, hmv⟩ := h
    obtain ⟨hval, hlt⟩ := next_in_index_some s1 (nx + 1) c hc
    subst hmv
    rw [Nat.add_comm c (nx + 1)]
    exact ⟨by omega, hlt, hval⟩
  | Other =>
    rw [nextFromIx.eq_def] at h
    simp only [Option.map_eq_some'] at h
    obtain ⟨c, hc, hmv⟩ := h
    obtain ⟨hval, hlt⟩ := next_rest_index_some s1 (nx + 1) c hc
    subst hmv
    rw [Nat.add_comm c (nx + 1)]
    exact ⟨by omega, hlt, hval⟩

/-- A successful `next_candidate` pairs an unmapped in-range `G0` node with an
unmapped in-range `G1` node. -/
theorem nextCandidate_bounds (s0 s1 : Vf2State) (n m : Nat) (ol : OpenList)
    (h : nextCandidate s0 s1 = some (n, m, ol)) :
    (s0.mapping.getD n 0 = usizeMAX ∧ n < s0.mapping.length) ∧
    (s1.mapping.getD m 0 = usizeMAX ∧ m < s1.mapping.length) := by
  rw [nextCandidate] at h
  have hfrom : ∀ j, (s0.next_out_index 0 = some j ∨ s0.next_in_index 0 = some j ∨
      s0.next_rest_index 0 = some j) →
      s0.mapping.getD j 0 = usizeMAX ∧ j < s0.mapping.length := by
    intro j hj
    rcases hj with hj | hj | hj
    · have := next_out_index_some s0 0 j hj
      rwa [Nat.zero_add] at this
    · have := next_in_index_some s0 0 j hj
      rwa [Nat.zero_add] at this
    · have := next_rest_index_some s0 0 j hj
      rwa [Nat.zero_add] at this
  have hto : ∀ j, (s1.next_out_index 0 = some j ∨ s1.next_in_index 0 = some j ∨
      s1.next_rest_index 0 = some j) →
      s1.mapping.getD j 0 = usizeMAX ∧ j < s1.mapping.length := by
    intro j hj
    rcases hj with hj | hj | hj
    · have := next_out_index_some s1 0 j hj
      rwa [Nat.zero_add] at this
    · have := next_in_index_some s1 0 j hj
      rwa [Nat.zero_add] at this
    · have := next_rest_index_some s1 0 j hj
      rwa [Nat.zero_add] at this
  cases ht0 : s1.next_out_index 0 with
  | some v0 =>
    rw [ht0] at h
    simp only [Option.isSome_some, if_true] at h
    cases hf0 : s0.next_out_index 0 with
    | some w0 =>
      rw [hf0] at h
      simp only [Option.isNone_some, Bool.or_self, Bool.false_eq_true, if_false] at h
      injection h with h
      injection h with h1 h
      injection h with h2 h3
      exact ⟨hfrom n (Or.inl (h1 ▸ hf0)), hto m (Or.inl (h2 ▸ ht0))⟩
    | none =>
      rw [hf0] at h
      simp only [Option.isNone_none, Bool.or_true, if_true] at h
      cases ht1 : s1.next_in_index 0 with
      | some v1 =>
        rw [ht1] at h
        simp only [Option.isSome_some, if_true] at h
        cases hf1 : s0.next_in_index 0 with
        | some w1 =>
          rw [hf1] at h
          simp only [Option.isNone_some, Bool.or_self, Bool.false_eq_true, if_false] at h
          injection h with h
          injection h with h1 h
          injection h with h2 h3
          exact ⟨hfrom n (Or.inr (Or.inl (h1 ▸ hf1))), hto m (Or.inr (Or.inl (h2 ▸ ht1)))⟩
        | none =>
          rw [hf1] at h
          simp only [Option.isNone_none, Bool.or_true, if_true] at h
          cases ht2 : s1.next_rest_index 0 with
          | some v2 =>
            rw [ht2] at h
            simp only [Option.isSome_some, if_true] at h
            cases hf2 : s0.next_rest_index 0 with
            | some w2 =>
              rw [hf2] at h
              injection h with h
              injection h with h1 h
              injection h with h2 h3
              exact ⟨hfrom n (Or.inr (Or.inr (h1 ▸ hf2))), hto m (Or.inr (Or.inr (h2 ▸ ht2)))⟩
            | none =>
              rw [hf2] at h
              exact absurd h Option.noConfusion
          | none =>
            rw [ht2] at h
            simp only [Option.isSome_none, Bool.false_eq_true, if_false] at h
            exact absurd h Option.noConfusion
      | none =>
        rw [ht1] at h
        simp only [Option.isSome_none, Bool.false_eq_true, if_false] at h
        simp only [Option.isNone_none, Bool.true_or, Bool.or_true, if_true] at h
        cases ht2 : s1.next_rest_index 0 with
        | some v2 =>
          rw [ht2] at h
          simp only [Option.isSome_some, if_true] at h
          cases hf2 : s0.next_rest_index 0 with
          | some w2 =>
            rw [hf2] at h
            injection h with h
            injection h with h1 h
            injection h with h2 h3
            exact ⟨hfrom n (Or.inr (Or.inr (h1 ▸ hf2))), hto m (Or.inr (Or.inr (h2 ▸ ht2)))⟩
          | none =>
            rw [hf2] at h
            exact absurd h Option.noConfusion
        | none =>
          rw [ht2] at h
          simp only [Option.isSome_none, Bool.false_eq_true, if_false] at h
          exact absurd h Option.noConfusion
  | none =>
    rw [ht0] at h
    simp only [Option.isSome_none, Bool.false_eq_true, if_false] at h
    simp only [Option.isNone_none, Bool.true_or, Bool.or_true, if_true] at h
    cases ht1 : s1.next_in_index 0 with
    | some v1 =>
      rw [ht1] at h
      simp only [Option.isSome_some, if_true] at h
      cases hf1 : s0.next_in_index 0 with
      | some w1 =>
        rw [hf1] at h
        simp only [Option.isNone_some, Bool.or_self, Bool.false_eq_true, if_false] at h
        injection h with h
        injection h with h1 h
        injection h with h2 h3
        exact ⟨hfrom n (Or.inr (Or.inl (h1 ▸ hf1))), hto m (Or.inr (Or.inl (h2 ▸ ht1)))⟩
      | none =>
        rw [hf1] at h
        simp only [Option.isNone_none, Bool.or_true, if_true] at h
        cases ht2 : s1.next_rest_index 0 with
        | some v2 =>
          rw [ht2] at h
          simp only [Option.isSome_some, if_true] at h
          cases hf2 : s0.next_rest_index 0 with
          | some w2 =>
            rw [hf2] at h
            injection h with h
            injection h with h1 h
            injection h with h2 h3
            exact ⟨hfrom n (Or.inr (Or.inr (h1 ▸ hf2))), hto m (Or.inr (Or.inr (h2 ▸ ht2)))⟩
          | none =>
            rw [hf2] at h
            exact absurd h Option.noConfusion
        | none =>
          rw [ht2] at h
          simp only [Option.isSome_none, Bool.false_eq_true, if_false] at h
          exact absurd h Option.noConfusion
    | none =>
      rw [ht1] at h
      simp only [Option.isSome_none, Bool.false_eq_true, if_false] at h
      simp only [Option.isNone_none, Bool.true_or, Bool.or_true, if_true] at h
      cases ht2 : s1.next_rest_index 0 with
      | some v2 =>
        rw [ht2] at h
        simp only [Option.isSome_some, if_true] at h
        cases hf2 : s0.next_rest_index 0 with
        | some w2 =>
          rw [hf2] at h
          injection h with h
          injection h with h1 h
          injection h with h2 h3
          exact ⟨hfrom n (Or.inr (Or.inr (h1 ▸ hf2))), hto m (Or.inr (Or.inr (h2 ▸ ht2)))⟩
        | none =>
          rw [hf2] at h
          exact absurd h Option.noConfusion
      | none =>
        rw [ht2] at h
        simp only [Option.isSome_none, Bool.false_eq_true, if_false] at h
        exact absurd h Option.noConfusion

/-- A node matcher built from an all-rejecting caller predicate rejects every
pair. -/
theorem nodeMatcherEq_reject {W0 W1 : Type} (w0 : Nat → Option W0)
    (w1 : Nat → Option W1) (np : W0 → W1 → Bool) (hrej : ∀ x y, np x y = false) :
    ∀ a b, nodeMatcherEq w0 w1 np a b = false := by
  intro a b
  rw [nodeMatcherEq]
  cases w0 a with
  | none => rfl
  | some x =>
    cases w1 b with
    | none => rfl
    | some y => exact hrej x y

/-- With an enabled node matcher that rejects every pair, no candidate pair is
ever feasible. -/
theorem isFeasible_reject (st : Vf2State × Vf2State) (nodes : Nat × Nat)
    (neq : Nat → Nat → Bool) (em : EdgeM) (hrej : ∀ a b, neq a b = false) :
    isFeasible st nodes ⟨true, neq⟩ em = false := by
  rw [isFeasible]
  split
  next => rfl
  next c0 h0 =>
  split
  next => rfl
  next c1 h1 =>
  split
  next => rfl
  next hlt =>
  split
  next => rfl
  next hdp =>
  rw [if_pos (by simp [hrej])]

/-- When no pair is feasible, the search starting from an `Inner` frame walks
the remaining `G1` candidates and stops with no result and an empty stack. -/
theorem vf2Loop_infeasible_inner (nm : NodeM) (em : EdgeM) (sub : Bool)
    (st : Vf2State × Vf2State)
    (hinf : ∀ nodes, isFeasible st nodes nm em = false) :
    ∀ (k mIdx n : Nat) (ol : OpenList) (fuel : Nat),
      st.2.mapping.length ≤ mIdx + k → k + 1 ≤ fuel →
      vf2Loop nm em sub fuel st [Frame.Inner (n, mIdx) ol] = some (none, st, []) := by
  intro k
  induction k with
  | zero =>
    intro mIdx n ol fuel hlen hfuel
    cases fuel with
    | zero => omega
    | succ f =>
      rw [vf2Loop, vf2Step, hinf (n, mIdx)]
      simp only [Bool.false_eq_true, if_false]
      cases hnx : nextFromIx st.2 mIdx ol with
      | none => exact vf2Loop_nil nm em sub f st
      | some mv =>
        obtain ⟨hgt, hlt, _⟩ := nextFromIx_bound st.2 mIdx ol mv hnx
        omega
  | succ k ih =>
    intro mIdx n ol fuel hlen hfuel
    cases fuel with
    | zero => omega
    | succ f =>
      rw [vf2Loop, vf2Step, hinf (n, mIdx)]
      simp only [Bool.false_eq_true, if_false]
      cases hnx : nextFromIx st.2 mIdx ol with
      | none => exact vf2Loop_nil nm em sub f st
      | some mv =>
        obtain ⟨hgt, hlt, _⟩ := nextFromIx_bound st.2 mIdx ol mv hnx
        exact ih mv n ol f (by omega) (by omega)

/-- When no pair is feasible, the whole search from the initial `Outer` frame
terminates (within `|G1| + 2` iterations) with no result. -/
theorem vf2Loop_infeasible (nm : NodeM) (em : EdgeM) (sub : Bool)
    (st : Vf2State × Vf2State)
    (hinf : ∀ nodes, isFeasible st nodes nm em = false)
    (fuel : Nat) (hfuel : st.2.mapping.length + 2 ≤ fuel) :
    vf2Loop nm em sub fuel st [Frame.Outer] = some (none, st, []) := by
  cases fuel with
  | zero => omega
  | succ f =>
    rw [vf2Loop, vf2Step]
    cases hc : nextCandidate st.1 st.2 with
    | none => exact vf2Loop_nil nm em sub f st
    | some cand =>
      rcases cand with ⟨n, m, ol⟩
      obtain ⟨_, hm⟩ := nextCandidate_bounds st.1 st.2 n m ol hc
      exact vf2Loop_infeasible_inner nm em sub st hinf (st.2.mapping.length - m) m n ol f
        (by omega) (by omega)

/-- Counterexample to C6 as stated: for the two *empty* graphs — which are
structurally isomorphic — the one-shot empty-mapping override answers before
any matcher is consulted, so `is_isomorphic_matching` with an all-rejecting
node predicate still returns `true`. -/
theorem c6_semantic_reject_counterexample :
    is_isomorphic 1 (gN 0) (gN 0) = some true ∧
    is_isomorphic_matching 1 (gN 0) (gN 0) (fun _ => (none : Option Nat))
      (fun _ => (none : Option Nat)) (fun _ _ => false) (fun _ _ => false) = some true := by
  exact ⟨by decide, by decide⟩

/-- C6 amended: for structurally isomorphic graphs with at least one node, an
all-rejecting node predicate makes `is_isomorphic_matching` return `false`
(given enough fuel for the pruned search, `|G1| + 2` iterations) even though
`is_isomorphic` returns `true`. -/
theorem c6_semantic_reject {W0 W1 : Type} (g0 g1 : Graph) (fuel fuel2 : Nat)
    (w0 : Nat → Option W0) (w1 : Nat → Option W1) (np : W0 → W1 → Bool)
    (ee : Nat × Nat → Nat × Nat → Bool)
    (hpos : 1 ≤ g0.n) (hrej : ∀ x y, np x y = false)
    (hiso : is_isomorphic fuel g0 g1 = some true)
    (hfuel : g1.n + 2 ≤ fuel2) :
    is_isomorphic_matching fuel2 g0 g1 w0 w1 np ee = some false := by
  have hguard : (g0.node_count != g1.node_count || g0.edge_count != g1.edge_count) = false := by
    cases hb : (g0.node_count != g1.node_count || g0.edge_count != g1.edge_count) with
    | false => rfl
    | true =>
      rw [is_isomorphic, if_pos hb] at hiso
      exact absurd (Option.some.inj hiso) Bool.false_ne_true
  rw [is_isomorphic_matching, hguard]
  simp only [Bool.false_eq_true, if_false]
  have hov : (GraphMatcher.new g0 g1 false).iter_override = none := by
    rw [GraphMatcher.new]
    simp only
    rw [if_neg]
    rw [Vf2State.is_complete]
    simp [Vf2State.new]
    omega
  rw [GraphMatcher.next, hov]
  have hinf : ∀ nodes, isFeasible (Vf2State.new g0, Vf2State.new g1) nodes
      ⟨true, nodeMatcherEq w0 w1 np⟩ ⟨true, ee⟩ = false :=
    fun nodes => isFeasible_reject _ nodes _ _ (nodeMatcherEq_reject w0 w1 np hrej)
  have hlen : (Vf2State.new g1).mapping.length = g1.n := by
    simp [Vf2State.new]
  have hloop := vf2Loop_infeasible ⟨true, nodeMatcherEq w0 w1 np⟩ ⟨true, ee⟩ false
    (Vf2State.new g0, Vf2State.new g1) hinf fuel2 (by rw [hlen]; omega)
  rw [GraphMatcher.new]
  simp only
  rw [hloop]
  rfl

/-- Witness for the amended C6 at a concrete input: a 1-node graph matched
against itself under an all-rejecting node predicate. -/
theorem c6_semantic_reject_witness :
    is_isomorphic_matching 3 (gN 1) (gN 1) (fun i => some i) (fun i => some i)
      (fun _ _ => false) (fun _ _ => true) = some false :=
  c6_semantic_reject (gN 1) (gN 1) 5 3 _ _ _ _ (by decide) (fun _ _ => rfl)
    (by decide) (by decide)

/-- Number of committed (non-sentinel) entries of a mapping array. -/
def countNonMax (l : List Nat) : Nat := (l.filter fun x => x != usizeMAX).length

/-- A fresh mapping has no committed entries. -/
theorem countNonMax_replicate (k : Nat) : countNonMax (List.replicate k usizeMAX) = 0 := by
  induction k with
  | zero => rfl
  | succ k ih =>
    rw [countNonMax, List.replicate_succ, List.filter_cons]
    simp only [bne_self_eq_false, Bool.false_eq_true, if_false]
    exact ih

/-- Reading a fresh mapping gives the sentinel everywhere in range. -/
theorem getD_replicate (k x i : Nat) (h : i < k) :
    (List.replicate k x).getD i 0 = x := by
  rw [List.getD_eq_getElem _ 0 (by rw [List.length_replicate]; exact h)]
  exact List.getElem_replicate x _

/-- Committing an uncommitted slot adds one committed entry. -/
theorem countNonMax_set_commit (l : List Nat) (n v : Nat) (hn : n < l.length)
    (hold : l.getD n 0 = usizeMAX) (hv : v ≠ usizeMAX) :
    countNonMax (l.set n v) = countNonMax l + 1 := by
  induction l generalizing n with
  | nil => simp at hn
  | cons x xs ih =>
    cases n with
    | zero =>
      have hx : x = usizeMAX := hold
      subst hx
      rw [List.set_cons_zero, countNonMax, countNonMax, List.filter_cons, List.filter_cons]
      simp only [bne_self_eq_false, Bool.false_eq_true, if_false]
      rw [if_pos (by simpa using hv)]
      rfl
    | succ n =>
      rw [List.set_cons_succ, countNonMax, countNonMax, List.filter_cons, List.filter_cons]
      have hn' : n < xs.length := by simpa using hn
      have hold' : xs.getD n 0 = usizeMAX := by simpa [List.getD_cons_succ] using hold
      have := ih n hn' hold'
      rw [countNonMax, countNonMax] at this
      by_cases hx : (x != usizeMAX) = true
      · rw [if_pos hx, if_pos hx, List.length_cons, List.length_cons, this]
      · rw [if_neg hx, if_neg hx, this]

/-- Rolling back a committed slot removes one committed entry (and there was
at least one). -/
theorem countNonMax_set_rollback (l : List Nat) (n : Nat) (hn : n < l.length)
    (hold : l.getD n 0 ≠ usizeMAX) :
    countNonMax (l.set n usizeMAX) = countNonMax l - 1 ∧ 1 ≤ countNonMax l := by
  induction l generalizing n with
  | nil => simp at hn
  | cons x xs ih =>
    cases n with
    | zero =>
      have hx : x ≠ usizeMAX := hold
      rw [List.set_cons_zero, countNonMax, countNonMax, List.filter_cons, List.filter_cons]
      simp only [bne_self_eq_false, Bool.false_eq_true, if_false]
      rw [if_pos (by simpa using hx), List.length_cons]
      exact ⟨by omega, by omega⟩
    | succ n =>
      rw [List.set_cons_succ, countNonMax, countNonMax, List.filter_cons, List.filter_cons]
      have hn' : n < xs.length := by simpa using hn
      have hold' : xs.getD n 0 ≠ usizeMAX := by simpa [List.getD_cons_succ] using hold
      obtain ⟨h1, h2⟩ := ih n hn' hold'
      rw [countNonMax, countNonMax] at h1
      rw [countNonMax] at h2
      by_cases hx : (x != usizeMAX) = true
      · rw [if_pos hx, if_pos hx, List.length_cons, List.length_cons, h1]
        exact ⟨by omega, by omega⟩
      · rw [if_neg hx, if_neg hx, h1]
        exact ⟨rfl, by omega⟩

/-- A mapping with as many committed entries as slots has no sentinel left. -/
theorem all_committed_of_countNonMax (l : List Nat) (h : countNonMax l = l.length) :
    ∀ i, i < l.length → l.getD i 0 ≠ usizeMAX := by
  intro i hi
  have hall := List.filter_length_eq_length.mp h
  have hmem : l[i] ∈ l := List.getElem_mem hi
  have := hall _ hmem
  rw [List.getD_eq_getElem _ 0 hi]
  simpa using this

/-- Projections of `push_mapping` that do not depend on directedness. -/
theorem push_mapping_mapping (st : Vf2State) (fr tn : Nat) :
    (st.push_mapping fr tn).mapping = st.mapping.set fr tn := by
  rw [Vf2State.push_mapping]
  split <;> rfl

/-- The generation after a commit. -/
theorem push_mapping_generation (st : Vf2State) (fr tn : Nat) :
    (st.push_mapping fr tn).generation = st.generation + 1 := by
  rw [Vf2State.push_mapping]
  split <;> rfl

/-- The graph is untouched by a commit. -/
theorem push_mapping_graph (st : Vf2State) (fr tn : Nat) :
    (st.push_mapping fr tn).graph = st.graph := by
  rw [Vf2State.push_mapping]
  split <;> rfl

/-- Projections of `pop_mapping` that do not depend on directedness. -/
theorem pop_mapping_mapping (st : Vf2State) (fr : Nat) :
    (st.pop_mapping fr).mapping = st.mapping.set fr usizeMAX := by
  rw [Vf2State.pop_mapping]
  split <;> rfl

/-- The generation after a rollback. -/
theorem pop_mapping_generation (st : Vf2State) (fr : Nat) :
    (st.pop_mapping fr).generation = st.generation - 1 := by
  rw [Vf2State.pop_mapping]

/-- The graph is untouched by a rollback. -/
theorem pop_mapping_graph (st : Vf2State) (fr : Nat) :
    (st.pop_mapping fr).graph = st.graph := by
  rw [Vf2State.pop_mapping]
  split <;> rfl

/-- What it means for a yielded mapping to be a valid injection into `g1`:
full length, in-range entries, no duplicates. -/
def YieldOk (g0 g1 : Graph) (r : List Nat) : Prop :=
  r.length = g0.n ∧ (∀ i, i < r.length → r.getD i 0 < g1.n) ∧
  (∀ i j, i < r.length → j < r.length → r.getD i 0 = r.getD j 0 → i = j)

/-- The two mappings are mutually inverse partial injections. -/
def MutInv (s0 s1 : Vf2State) : Prop :=
  (∀ i, i < s0.mapping.length → s0.mapping.getD i 0 ≠ usizeMAX →
    s0.mapping.getD i 0 < s1.mapping.length ∧
      s1.mapping.getD (s0.mapping.getD i 0) 0 = i) ∧
  (∀ j, j < s1.mapping.length → s1.mapping.getD j 0 ≠ usizeMAX →
    s1.mapping.getD j 0 < s0.mapping.length ∧
      s0.mapping.getD (s1.mapping.getD j 0) 0 = j)

/-- State part of the search invariant. -/
def StInv (st : Vf2State × Vf2State) : Prop :=
  st.1.mapping.length = st.1.graph.n ∧
  st.2.mapping.length = st.2.graph.n ∧
  st.1.graph.n < usizeMAX ∧
  st.2.graph.n < usizeMAX ∧
  MutInv st.1 st.2 ∧
  st.1.generation = countNonMax st.1.mapping

/-- The `G0` nodes of the `Unwind` frames of a stack, top first. -/
def unwindFirsts : List Frame → List Nat
  | [] => []
  | Frame.Unwind nodes _ :: rest => nodes.1 :: unwindFirsts rest
  | _ :: rest => unwindFirsts rest

/-- Every `Unwind` frame on the stack records a currently committed,
mutually mapped pair. -/
def unwindPairsOk (s0 s1 : Vf2State) (stack : List Frame) : Prop :=
  ∀ a b ol, Frame.Unwind (a, b) ol ∈ stack →
    a < s0.mapping.length ∧ b < s1.mapping.length ∧
    s0.mapping.getD a 0 = b ∧ s1.mapping.getD b 0 = a

/-- No `Inner` frame anywhere in the stack. -/
def noInner (stack : List Frame) : Prop :=
  ∀ nodes ol, Frame.Inner nodes ol ∉ stack

/-- An `Inner` frame can only sit on top of the stack, and then it names an
in-range uncommitted pair. -/
def stackShape (s0 s1 : Vf2State) : List Frame → Prop
  | [] => True
  | Frame.Inner nodes _ :: rest =>
      nodes.1 < s0.mapping.length ∧ nodes.2 < s1.mapping.length ∧
      s0.mapping.getD nodes.1 0 = usizeMAX ∧ s1.mapping.getD nodes.2 0 = usizeMAX ∧
      noInner rest
  | _ :: rest => noInner rest

/-- The full search-machine invariant. -/
def MachInv (st : Vf2State × Vf2State) (stack : List Frame) : Prop :=
  StInv st ∧ unwindPairsOk st.1 st.2 stack ∧ (unwindFirsts stack).Nodup ∧
    stackShape st.1 st.2 stack

/-- Matcher-level invariant: machine invariant plus the override (when it
still holds a mapping) holding a valid injection. -/
def MatcherInv (ms : MatcherSt) : Prop :=
  MachInv ms.st ms.stack ∧
  ∀ r, ms.iter_override = some (some r) → YieldOk ms.st.1.graph ms.st.2.graph r

/-- A stack without `Inner` frames has a valid shape. -/
theorem stackShape_of_noInner (s0 s1 : Vf2State) (stack : List Frame)
    (h : noInner stack) : stackShape s0 s1 stack := by
  cases stack with
  | nil => trivial
  | cons f rest =>
    cases f with
    | Outer => exact fun nodes ol hm => h nodes ol (List.mem_cons_of_mem _ hm)
    | Inner nodes ol => exact absurd (List.mem_cons_self _ _) (h nodes ol)
    | Unwind nodes ol => exact fun nodes' ol' hm => h nodes' ol' (List.mem_cons_of_mem _ hm)

/-- The shape invariant always rules out `Inner` frames below the head. -/
theorem noInner_of_stackShape (s0 s1 : Vf2State) (f : Frame) (rest : List Frame)
    (h : stackShape s0 s1 (f :: rest)) : noInner rest := by
  cases f with
  | Outer => exact h
  | Inner nodes ol => exact h.2.2.2.2
  | Unwind nodes ol => exact h

/-- Membership in `unwindFirsts` comes from an `Unwind` frame. -/
theorem mem_unwindFirsts (stack : List Frame) (a : Nat) :
    a ∈ unwindFirsts stack → ∃ b ol, Frame.Unwind (a, b) ol ∈ stack := by
  induction stack with
  | nil => intro h; exact absurd h (List.not_mem_nil a)
  | cons f rest ih =>
    intro h
    cases f with
    | Outer =>
      obtain ⟨b, ol, hm⟩ := ih h
      exact ⟨b, ol, List.mem_cons_of_mem _ hm⟩
    | Inner nodes ol =>
      obtain ⟨b, ol', hm⟩ := ih h
      exact ⟨b, ol', List.mem_cons_of_mem _ hm⟩
    | Unwind nodes ol =>
      rw [unwindFirsts] at h
      rcases List.mem_cons.mp h with rfl | h
      · exact ⟨nodes.2, ol, List.mem_cons_self _ _⟩
      · obtain ⟨b, ol', hm⟩ := ih h
        exact ⟨b, ol', List.mem_cons_of_mem _ hm⟩

/-- Committing a fresh in-range pair preserves the state invariant. -/
theorem StInv_push (st : Vf2State × Vf2State) (n m : Nat) (hinv : StInv st)
    (hn : n < st.1.mapping.length) (hm : m < st.2.mapping.length)
    (hn0 : st.1.mapping.getD n 0 = usizeMAX) (hm0 : st.2.mapping.getD m 0 = usizeMAX) :
    StInv (pushState st (n, m)) := by
  obtain ⟨hl0, hl1, hb0, hb1, ⟨hmut0, hmut1⟩, hgen⟩ := hinv
  have hmne : m ≠ usizeMAX := by omega
  have hnne : n ≠ usizeMAX := by omega
  have e0 : (pushState st (n, m)).1.mapping = st.1.mapping.set n m :=
    push_mapping_mapping _ _ _
  have e1 : (pushState st (n, m)).2.mapping = st.2.mapping.set m n :=
    push_mapping_mapping _ _ _
  have eg0 : (pushState st (n, m)).1.graph = st.1.graph := push_mapping_graph _ _ _
  have eg1 : (pushState st (n, m)).2.graph = st.2.graph := push_mapping_graph _ _ _
  refine ⟨?_, ?_, ?_, ?_, ⟨?_, ?_⟩, ?_⟩
  · rw [e0, List.length_set, eg0]; exact hl0
  · rw [e1, List.length_set, eg1]; exact hl1
  · rw [eg0]; exact hb0
  · rw [eg1]; exact hb1
  · intro i hi hne
    rw [e0, List.length_set] at hi
    rw [e0, getD_set_ite] at hne ⊢
    rw [e1, List.length_set, getD_set_ite]
    by_cases hin : i = n
    · subst hin
      rw [if_pos ⟨rfl, hn⟩] at hne ⊢
      rw [if_pos ⟨rfl, hm⟩]
      exact ⟨hm, rfl⟩
    · rw [if_neg (fun hc => hin hc.1.symm)] at hne ⊢
      obtain ⟨hjlt, hback⟩ := hmut0 i hi hne
      have hjm : st.1.mapping.getD i 0 ≠ m := by
        intro hjm
        rw [hjm] at hback
        rw [hm0] at hback
        omega
      rw [if_neg (fun hc => hjm hc.1.symm)]
      exact ⟨hjlt, hback⟩
  · intro j hj hne
    rw [e1, List.length_set] at hj
    rw [e1, getD_set_ite] at hne ⊢
    rw [e0, List.length_set, getD_set_ite]
    by_cases hjm : j = m
    · subst hjm
      rw [if_pos ⟨rfl, hm⟩] at hne ⊢
      rw [if_pos ⟨rfl, hn⟩]
      exact ⟨hn, rfl⟩
    · rw [if_neg (fun hc => hjm hc.1.symm)] at hne ⊢
      obtain ⟨hilt, hback⟩ := hmut1 j hj hne
      have hin : st.2.mapping.getD j 0 ≠ n := by
        intro hin
        rw [hin] at hback
        rw [hn0] at hback
        omega
      rw [if_neg (fun hc => hin hc.1.symm)]
      exact ⟨hilt, hback⟩
  · rw [e0]
    show (st.1.push_mapping n m).generation = countNonMax (st.1.mapping.set n m)
    rw [push_mapping_generation, hgen, countNonMax_set_commit st.1.mapping n m hn hn0 hmne]

/-- Rolling back a currently committed, mutually mapped pair preserves the
state invariant. -/
theorem StInv_pop (st : Vf2State × Vf2State) (n m : Nat) (hinv : StInv st)
    (hn : n < st.1.mapping.length) (hm : m < st.2.mapping.length)
    (hn0 : st.1.mapping.getD n 0 = m) (hm0 : st.2.mapping.getD m 0 = n) :
    StInv (popState st (n, m)) := by
  obtain ⟨hl0, hl1, hb0, hb1, ⟨hmut0, hmut1⟩, hgen⟩ := hinv
  have e0 : (popState st (n, m)).1.mapping = st.1.mapping.set n usizeMAX :=
    pop_mapping_mapping _ _
  have e1 : (popState st (n, m)).2.mapping = st.2.mapping.set m usizeMAX :=
    pop_mapping_mapping _ _
  have eg0 : (popState st (n, m)).1.graph = st.1.graph := pop_mapping_graph _ _
  have eg1 : (popState st (n, m)).2.graph = st.2.graph := pop_mapping_graph _ _
  refine ⟨?_, ?_, ?_, ?_, ⟨?_, ?_⟩, ?_⟩
  · rw [e0, List.length_set, eg0]; exact hl0
  · rw [e1, List.length_set, eg1]; exact hl1
  · rw [eg0]; exact hb0
  · rw [eg1]; exact hb1
  · intro i hi hne
    rw [e0, List.length_set] at hi
    rw [e0, getD_set_ite] at hne ⊢
    rw [e1, List.length_set, getD_set_ite]
    by_cases hin : i = n
    · subst hin
      rw [if_pos ⟨rfl, hn⟩] at hne
      exact absurd rfl hne
    · rw [if_neg (fun hc => hin hc.1.symm)] at hne ⊢
      obtain ⟨hjlt, hback⟩ := hmut0 i hi hne
      have hjm : st.1.mapping.getD i 0 ≠ m := by
        intro hjm
        rw [hjm, hm0] at hback
        exact hin hback.symm
      rw [if_neg (fun hc => hjm hc.1.symm)]
      exact ⟨hjlt, hback⟩
  · intro j hj hne
    rw [e1, List.length_set] at hj
    rw [e1, getD_set_ite] at hne ⊢
    rw [e0, List.length_set, getD_set_ite]
    by_cases hjm : j = m
    · subst hjm
      rw [if_pos ⟨rfl, hm⟩] at hne
      exact absurd rfl hne
    · rw [if_neg (fun hc => hjm hc.1.symm)] at hne ⊢
      obtain ⟨hilt, hback⟩ := hmut1 j hj hne
      have hjn : st.2.mapping.getD j 0 ≠ n := by
        intro hjn
        rw [hjn, hn0] at hback
        exact hjm hback.symm
      rw [if_neg (fun hc => hjn hc.1.symm)]
      exact ⟨hilt, hback⟩
  · have hmane : st.1.mapping.getD n 0 ≠ usizeMAX := by
      rw [hn0]; omega
    obtain ⟨hcount, hpos⟩ := countNonMax_set_rollback st.1.mapping n hn hmane
    rw [e0]
    show (st.1.pop_mapping n).generation = countNonMax (st.1.mapping.set n usizeMAX)
    rw [pop_mapping_generation, hgen, hcount]

/-- An `Unwind` frame contributes its `G0` node to `unwindFirsts`. -/
theorem unwindFirsts_mem (stack : List Frame) (a b : Nat) (ol : OpenList)
    (h : Frame.Unwind (a, b) ol ∈ stack) : a ∈ unwindFirsts stack := by
  induction stack with
  | nil => exact absurd h (List.not_mem_nil _)
  | cons f rest ih =>
    rcases List.mem_cons.mp h with rfl | h2
    · rw [unwindFirsts]
      exact List.mem_cons_self _ _
    · clear h
      cases f with
      | Outer => exact ih h2
      | Inner nodes ol' => exact ih h2
      | Unwind nodes ol' =>
        rw [unwindFirsts]
        exact List.mem_cons_of_mem _ (ih h2)

/-- Dropping the stack head preserves the machine invariant. -/
theorem MachInv_tail (st : Vf2State × Vf2State) (f : Frame) (rest : List Frame)
    (h : MachInv st (f :: rest)) : MachInv st rest := by
  obtain ⟨hst, hup, hnd, hsh⟩ := h
  refine ⟨hst, fun a b ol hm => hup a b ol (List.mem_cons_of_mem _ hm), ?_,
    stackShape_of_noInner _ _ _ (noInner_of_stackShape _ _ _ _ hsh)⟩
  cases f with
  | Outer => exact hnd
  | Inner nodes ol => exact hnd
  | Unwind nodes ol => exact (List.nodup_cons.mp hnd).2

/-- The committed pairs recorded on the stack avoid any uncommitted pair. -/
theorem unwindPairs_avoid (s0 s1 : Vf2State) (stack : List Frame)
    (hup : unwindPairsOk s0 s1 stack)
    (hbound0 : s0.mapping.length < usizeMAX) (hbound1 : s1.mapping.length < usizeMAX)
    (n m : Nat) (hn0 : s0.mapping.getD n 0 = usizeMAX)
    (hm0 : s1.mapping.getD m 0 = usizeMAX) :
    ∀ a b ol, Frame.Unwind (a, b) ol ∈ stack → a ≠ n ∧ b ≠ m := by
  intro a b ol hmem
  obtain ⟨ha, hb, h0, h1⟩ := hup a b ol hmem
  constructor
  · intro h
    subst h
    rw [hn0] at h0
    omega
  · intro h
    subst h
    rw [hm0] at h1
    omega

/-- The pairs below the top `Unwind` frame avoid the pair it records. -/
theorem unwindPairs_avoid_head (s0 s1 : Vf2State) (a0 b0 : Nat) (ol0 : OpenList)
    (rest : List Frame)
    (hup : unwindPairsOk s0 s1 (Frame.Unwind (a0, b0) ol0 :: rest))
    (hnd : (unwindFirsts (Frame.Unwind (a0, b0) ol0 :: rest)).Nodup) :
    ∀ a b ol, Frame.Unwind (a, b) ol ∈ rest → a ≠ a0 ∧ b ≠ b0 := by
  intro a b ol hmem
  obtain ⟨_, _, h0, h1⟩ := hup a b ol (List.mem_cons_of_mem _ hmem)
  obtain ⟨_, _, g0eq, g1eq⟩ := hup a0 b0 ol0 (List.mem_cons_self _ _)
  rw [unwindFirsts] at hnd
  have hnotin := (List.nodup_cons.mp hnd).1
  have hane : a ≠ a0 := by
    intro h
    subst h
    exact hnotin (unwindFirsts_mem rest a b ol hmem)
  refine ⟨hane, ?_⟩
  intro h
  subst h
  rw [g1eq] at h1
  exact hane h1.symm

/-- Stack pairs survive a simultaneous update of both mappings at indices the
pairs avoid. -/
theorem unwindPairsOk_set (s0 s1 s0' s1' : Vf2State) (stack : List Frame)
    (hup : unwindPairsOk s0 s1 stack) (n v0 m v1 : Nat)
    (h0 : s0'.mapping = s0.mapping.set n v0)
    (h1 : s1'.mapping = s1.mapping.set m v1)
    (havoid : ∀ a b ol, Frame.Unwind (a, b) ol ∈ stack → a ≠ n ∧ b ≠ m) :
    unwindPairsOk s0' s1' stack := by
  intro a b ol hmem
  obtain ⟨ha, hb, hv0, hv1⟩ := hup a b ol hmem
  obtain ⟨han, hbm⟩ := havoid a b ol hmem
  refine ⟨by rw [h0, List.length_set]; exact ha, by rw [h1, List.length_set]; exact hb, ?_, ?_⟩
  · rw [h0, getD_set_ite, if_neg (fun hc => han hc.1.symm)]
    exact hv0
  · rw [h1, getD_set_ite, if_neg (fun hc => hbm hc.1.symm)]
    exact hv1

/-- A committed complete mapping under the state invariant is a valid
injection. -/
theorem yieldOk_of_complete (st : Vf2State × Vf2State) (hst : StInv st)
    (hcomp : st.1.is_complete = true) :
    YieldOk st.1.graph st.2.graph st.1.mapping := by
  obtain ⟨hl0, hl1, hb0, hb1, ⟨hmut0, hmut1⟩, hgen⟩ := hst
  rw [Vf2State.is_complete] at hcomp
  have hgeq : st.1.generation = st.1.mapping.length := by simpa using hcomp
  have hcount : countNonMax st.1.mapping = st.1.mapping.length := by
    rw [← hgen]
    exact hgeq
  have hall := all_committed_of_countNonMax st.1.mapping hcount
  refine ⟨hl0, ?_, ?_⟩
  · intro i hi
    have := (hmut0 i hi (hall i hi)).1
    rw [hl1] at this
    exact this
  · intro i j hi hj heq
    have h1 := (hmut0 i hi (hall i hi)).2
    have h2 := (hmut0 j hj (hall j hj)).2
    rw [heq] at h1
    rw [h1] at h2
    exact h2

/-- One iteration of the search loop preserves the machine invariant, leaves
the graphs untouched, and only ever records valid injections. -/
theorem vf2Step_inv (nm : NodeM) (em : EdgeM) (sub : Bool)
    (st : Vf2State × Vf2State) (frame : Frame) (rest : List Frame)
    (st' : Vf2State × Vf2State) (stack' : List Frame) (res : Option (List Nat))
    (hinv : MachInv st (frame :: rest))
    (hstep : vf2Step nm em sub st frame rest = (st', stack', res)) :
    MachInv st' stack' ∧ st'.1.graph = st.1.graph ∧ st'.2.graph = st.2.graph ∧
    ∀ r, res = some r → YieldOk st.1.graph st.2.graph r := by
  obtain ⟨hst, hup, hnd, hsh⟩ := hinv
  have hbl0 : st.1.mapping.length < usizeMAX := by rw [hst.1]; exact hst.2.2.1
  have hbl1 : st.2.mapping.length < usizeMAX := by rw [hst.2.1]; exact hst.2.2.2.1
  have hupRest : unwindPairsOk st.1 st.2 rest :=
    fun a b ol' hm' => hup a b ol' (List.mem_cons_of_mem _ hm')
  cases frame with
  | Outer =>
    cases hc : nextCandidate st.1 st.2 with
    | none =>
      have he : vf2Step nm em sub st Frame.Outer rest = (st, rest, none) := by
        rw [vf2Step, hc]
      rw [he] at hstep
      injection hstep with e1 e23
      injection e23 with e2 e3
      subst e1; subst e2; subst e3
      exact ⟨MachInv_tail st Frame.Outer rest ⟨hst, hup, hnd, hsh⟩, rfl, rfl,
        fun r hr => absurd hr Option.noConfusion⟩
    | some cand =>
      rcases cand with ⟨n, m, ol⟩
      have he : vf2Step nm em sub st Frame.Outer rest =
          (st, Frame.Inner (n, m) ol :: rest, none) := by
        rw [vf2Step, hc]
      rw [he] at hstep
      injection hstep with e1 e23
      injection e23 with e2 e3
      subst e1; subst e2; subst e3
      obtain ⟨⟨hn0, hn⟩, hm0, hm⟩ := nextCandidate_bounds st.1 st.2 n m ol hc
      refine ⟨⟨hst, ?_, hnd, ⟨hn, hm, hn0, hm0, hsh⟩⟩, rfl, rfl,
        fun r hr => absurd hr Option.noConfusion⟩
      intro a b ol' hmem
      rcases List.mem_cons.mp hmem with heq | hmem2
      · exact absurd heq (fun hx => Frame.noConfusion hx)
      · exact hup a b ol' (List.mem_cons_of_mem _ hmem2)
  | Unwind nodes ol =>
    obtain ⟨ha, hb, h0eq, h1eq⟩ := hup nodes.1 nodes.2 ol (List.mem_cons_self _ _)
    have hq0 : (popState st nodes).1.mapping = st.1.mapping.set nodes.1 usizeMAX :=
      pop_mapping_mapping _ _
    have hq1 : (popState st nodes).2.mapping = st.2.mapping.set nodes.2 usizeMAX :=
      pop_mapping_mapping _ _
    have hqg0 : (popState st nodes).1.graph = st.1.graph := pop_mapping_graph _ _
    have hqg1 : (popState st nodes).2.graph = st.2.graph := pop_mapping_graph _ _
    have hStInv' : StInv (popState st nodes) :=
      StInv_pop st nodes.1 nodes.2 hst ha hb h0eq h1eq
    have havoid : ∀ a b ol', Frame.Unwind (a, b) ol' ∈ rest → a ≠ nodes.1 ∧ b ≠ nodes.2 :=
      unwindPairs_avoid_head st.1 st.2 nodes.1 nodes.2 ol rest hup hnd
    have hpairs' : unwindPairsOk (popState st nodes).1 (popState st nodes).2 rest :=
      unwindPairsOk_set st.1 st.2 _ _ rest hupRest nodes.1 usizeMAX nodes.2 usizeMAX
        hq0 hq1 havoid
    have hnd' : (unwindFirsts rest).Nodup := (List.nodup_cons.mp hnd).2
    have hni : noInner rest := hsh
    have hfresh0 : (popState st nodes).1.mapping.getD nodes.1 0 = usizeMAX := by
      rw [hq0, getD_set_ite, if_pos ⟨rfl, ha⟩]
    have hlen0' : nodes.1 < (popState st nodes).1.mapping.length := by
      rw [hq0, List.length_set]; exact ha
    cases hnx : nextFromIx (popState st nodes).2 nodes.2 ol with
    | none =>
      have he : vf2Step nm em sub st (Frame.Unwind nodes ol) rest =
          (popState st nodes, rest, none) := by
        rw [vf2Step, hnx]
      rw [he] at hstep
      injection hstep with e1 e23
      injection e23 with e2 e3
      subst e1; subst e2; subst e3
      exact ⟨⟨hStInv', hpairs', hnd', stackShape_of_noInner _ _ rest hni⟩, hqg0, hqg1,
        fun r hr => absurd hr Option.noConfusion⟩
    | some mv =>
      have he : vf2Step nm em sub st (Frame.Unwind nodes ol) rest =
          (popState st nodes, Frame.Inner (nodes.1, mv) ol :: rest, none) := by
        rw [vf2Step, hnx]
      rw [he] at hstep
      injection hstep with e1 e23
      injection e23 with e2 e3
      subst e1; subst e2; subst e3
      obtain ⟨hgt, hlt, hmvfresh⟩ := nextFromIx_bound (popState st nodes).2 nodes.2 ol mv hnx
      refine ⟨⟨hStInv', ?_, hnd', ⟨hlen0', hlt, hfresh0, hmvfresh, hni⟩⟩, hqg0, hqg1,
        fun r hr => absurd hr Option.noConfusion⟩
      intro a b ol' hmem
      rcases List.mem_cons.mp hmem with heq | hmem2
      · exact absurd heq (fun hx => Frame.noConfusion hx)
      · exact hpairs' a b ol' hmem2
  | Inner nodes ol =>
    obtain ⟨hn, hm, hn0, hm0, hni⟩ := hsh
    have havoid : ∀ a b ol', Frame.Unwind (a, b) ol' ∈ rest → a ≠ nodes.1 ∧ b ≠ nodes.2 :=
      unwindPairs_avoid st.1 st.2 rest hupRest hbl0 hbl1 nodes.1 nodes.2 hn0 hm0
    cases hfeas : isFeasible st nodes nm em with
    | false =>
      cases hnx : nextFromIx st.2 nodes.2 ol with
      | none =>
        have he : vf2Step nm em sub st (Frame.Inner nodes ol) rest = (st, rest, none) := by
          rw [vf2Step, hfeas]
          rw [if_neg (fun hx : false = true => Bool.noConfusion hx), hnx]
        rw [he] at hstep
        injection hstep with e1 e23
        injection e23 with e2 e3
        subst e1; subst e2; subst e3
        exact ⟨⟨hst, hupRest, hnd, stackShape_of_noInner _ _ rest hni⟩, rfl, rfl,
          fun r hr => absurd hr Option.noConfusion⟩
      | some mv =>
        have he : vf2Step nm em sub st (Frame.Inner nodes ol) rest =
            (st, Frame.Inner (nodes.1, mv) ol :: rest, none) := by
          rw [vf2Step, hfeas]
          rw [if_neg (fun hx : false = true => Bool.noConfusion hx), hnx]
        rw [he] at hstep
        injection hstep with e1 e23
        injection e23 with e2 e3
        subst e1; subst e2; subst e3
        obtain ⟨hgt, hlt, hmvfresh⟩ := nextFromIx_bound st.2 nodes.2 ol mv hnx
        refine ⟨⟨hst, ?_, hnd, ⟨hn, hlt, hn0, hmvfresh, hni⟩⟩, rfl, rfl,
          fun r hr => absurd hr Option.noConfusion⟩
        intro a b ol' hmem
        rcases List.mem_cons.mp hmem with heq | hmem2
        · exact absurd heq (fun hx => Frame.noConfusion hx)
        · exact hupRest a b ol' hmem2
    | true =>
      have hpm0 : (pushState st nodes).1.mapping = st.1.mapping.set nodes.1 nodes.2 :=
        push_mapping_mapping _ _ _
      have hpm1 : (pushState st nodes).2.mapping = st.2.mapping.set nodes.2 nodes.1 :=
        push_mapping_mapping _ _ _
      have hpg0 : (pushState st nodes).1.graph = st.1.graph := push_mapping_graph _ _ _
      have hpg1 : (pushState st nodes).2.graph = st.2.graph := push_mapping_graph _ _ _
      have hStInv1 : StInv (pushState st nodes) :=
        StInv_push st nodes.1 nodes.2 hst hn hm hn0 hm0
      have hyld : ∀ r,
          (if (pushState st nodes).1.is_complete then some (pushState st nodes).1.mapping
           else none) = some r → YieldOk st.1.graph st.2.graph r := by
        intro r hr
        by_cases hcomp : (pushState st nodes).1.is_complete = true
        · rw [if_pos hcomp] at hr
          injection hr with hr
          subst hr
          have hres := yieldOk_of_complete (pushState st nodes) hStInv1 hcomp
          rw [hpg0, hpg1] at hres
          exact hres
        · rw [if_neg hcomp] at hr
          exact absurd hr Option.noConfusion
      have hset0 : (pushState st nodes).1.mapping.getD nodes.1 0 = nodes.2 := by
        rw [hpm0, getD_set_ite, if_pos ⟨rfl, hn⟩]
      have hset1 : (pushState st nodes).2.mapping.getD nodes.2 0 = nodes.1 := by
        rw [hpm1, getD_set_ite, if_pos ⟨rfl, hm⟩]
      have hlen0p : nodes.1 < (pushState st nodes).1.mapping.length := by
        rw [hpm0, List.length_set]; exact hn
      have hlen1p : nodes.2 < (pushState st nodes).2.mapping.length := by
        rw [hpm1, List.length_set]; exact hm
      cases hla : lookahead sub (pushState st nodes).1 (pushState st nodes).2 with
      | true =>
        have he : vf2Step nm em sub st (Frame.Inner nodes ol) rest =
            (pushState st nodes, Frame.Outer :: Frame.Unwind nodes ol :: rest,
              if (pushState st nodes).1.is_complete then some (pushState st nodes).1.mapping
              else none) := by
          simp [vf2Step, hfeas, hla]
        rw [he] at hstep
        injection hstep with e1 e23
        injection e23 with e2 e3
        subst e1; subst e2; subst e3
        refine ⟨⟨hStInv1, ?_, ?_, ?_⟩, hpg0, hpg1, hyld⟩
        · intro a b ol' hmem
          rcases List.mem_cons.mp hmem with heq | hmem2
          · exact absurd heq (fun hx => Frame.noConfusion hx)
          · rcases List.mem_cons.mp hmem2 with heq | hmem3
            · injection heq with hpair holeq
              subst hpair
              exact ⟨hlen0p, hlen1p, hset0, hset1⟩
            · exact unwindPairsOk_set st.1 st.2 _ _ rest hupRest nodes.1 nodes.2
                nodes.2 nodes.1 hpm0 hpm1 havoid a b ol' hmem3
        · show (nodes.1 :: unwindFirsts rest).Nodup
          rw [List.nodup_cons]
          refine ⟨?_, hnd⟩
          intro hmemF
          obtain ⟨b, ol', hF⟩ := mem_unwindFirsts rest nodes.1 hmemF
          exact (havoid nodes.1 b ol' hF).1 rfl
        · show noInner (Frame.Unwind nodes ol :: rest)
          intro nodes' ol' hmem
          rcases List.mem_cons.mp hmem with heq | hmem2
          · exact Frame.noConfusion heq
          · exact hni nodes' ol' hmem2
      | false =>
        have hq0 : (popState (pushState st nodes) nodes).1.mapping =
            st.1.mapping.set nodes.1 usizeMAX := by
          have h := pop_mapping_mapping (pushState st nodes).1 nodes.1
          rw [hpm0, List.set_set] at h
          exact h
        have hq1 : (popState (pushState st nodes) nodes).2.mapping =
            st.2.mapping.set nodes.2 usizeMAX := by
          have h := pop_mapping_mapping (pushState st nodes).2 nodes.2
          rw [hpm1, List.set_set] at h
          exact h
        have hqg0 : (popState (pushState st nodes) nodes).1.graph = st.1.graph := by
          have h := pop_mapping_graph (pushState st nodes).1 nodes.1
          rw [hpg0] at h
          exact h
        have hqg1 : (popState (pushState st nodes) nodes).2.graph = st.2.graph := by
          have h := pop_mapping_graph (pushState st nodes).2 nodes.2
          rw [hpg1] at h
          exact h
        have hStInv2 : StInv (popState (pushState st nodes) nodes) :=
          StInv_pop (pushState st nodes) nodes.1 nodes.2 hStInv1 hlen0p hlen1p hset0 hset1
        have hpairs2 : unwindPairsOk (popState (pushState st nodes) nodes).1
            (popState (pushState st nodes) nodes).2 rest :=
          unwindPairsOk_set st.1 st.2 _ _ rest hupRest nodes.1 usizeMAX nodes.2 usizeMAX
            hq0 hq1 havoid
        have hfresh0 : (popState (pushState st nodes) nodes).1.mapping.getD nodes.1 0 =
            usizeMAX := by
          rw [hq0, getD_set_ite, if_pos ⟨rfl, hn⟩]
        have hlen0q : nodes.1 < (popState (pushState st nodes) nodes).1.mapping.length := by
          rw [hq0, List.length_set]; exact hn
        cases hnx : nextFromIx (popState (pushState st nodes) nodes).2 nodes.2 ol with
        | none =>
          have he : vf2Step nm em sub st (Frame.Inner nodes ol) rest =
              (popState (pushState st nodes) nodes, rest,
                if (pushState st nodes).1.is_complete
                then some (pushState st nodes).1.mapping else none) := by
            simp only [vf2Step, hfeas, if_true, hla, Bool.false_eq_true, if_false]
            rw [hnx]
          rw [he] at hstep
          injection hstep with e1 e23
          injection e23 with e2 e3
          subst e1; subst e2; subst e3
          exact ⟨⟨hStInv2, hpairs2, hnd, stackShape_of_noInner _ _ rest hni⟩, hqg0, hqg1, hyld⟩
        | some mv =>
          have he : vf2Step nm em sub st (Frame.Inner nodes ol) rest =
              (popState (pushState st nodes) nodes, Frame.Inner (nodes.1, mv) ol :: rest,
                if (pushState st nodes).1.is_complete
                then some (pushState st nodes).1.mapping else none) := by
            simp only [vf2Step, hfeas, if_true, hla, Bool.false_eq_true, if_false]
            rw [hnx]
          rw [he] at hstep
          injection hstep with e1 e23
          injection e23 with e2 e3
          subst e1; subst e2; subst e3
          obtain ⟨hgt, hlt, hmvfresh⟩ :=
            nextFromIx_bound (popState (pushState st nodes) nodes).2 nodes.2 ol mv hnx
          refine ⟨⟨hStInv2, ?_, hnd, ⟨hlen0q, hlt, hfresh0, hmvfresh, hni⟩⟩, hqg0, hqg1, hyld⟩
          intro a b ol' hmem
          rcases List.mem_cons.mp hmem with heq | hmem2
          · exact absurd heq (fun hx => Frame.noConfusion hx)
          · exact hpairs2 a b ol' hmem2

/-- Any number of search-loop iterations preserves the machine invariant,
leaves the graphs untouched, and only ever returns valid injections. -/
theorem vf2Loop_inv (nm : NodeM) (em : EdgeM) (sub : Bool) :
    ∀ (fuel : Nat) (st : Vf2State × Vf2State) (stack : List Frame)
      (res : Option (List Nat)) (st' : Vf2State × Vf2State) (stack' : List Frame),
      MachInv st stack →
      vf2Loop nm em sub fuel st stack = some (res, st', stack') →
      MachInv st' stack' ∧ st'.1.graph = st.1.graph ∧ st'.2.graph = st.2.graph ∧
      ∀ r, res = some r → YieldOk st.1.graph st.2.graph r := by
  intro fuel
  induction fuel with
  | zero =>
    intro st stack res st' stack' hinv hrun
    cases stack with
    | nil =>
      rw [vf2Loop] at hrun
      injection hrun with h
      injection h with h1 h23
      injection h23 with h2 h3
      subst h1; subst h2; subst h3
      exact ⟨hinv, rfl, rfl, fun r hr => absurd hr Option.noConfusion⟩
    | cons f rest =>
      rw [vf2Loop] at hrun
      exact absurd hrun Option.noConfusion
  | succ fuel ih =>
    intro st stack res st' stack' hinv hrun
    cases stack with
    | nil =>
      rw [vf2Loop] at hrun
      injection hrun with h
      injection h with h1 h23
      injection h23 with h2 h3
      subst h1; subst h2; subst h3
      exact ⟨hinv, rfl, rfl, fun r hr => absurd hr Option.noConfusion⟩
    | cons f rest =>
      rw [vf2Loop] at hrun
      rcases hstep : vf2Step nm em sub st f rest with ⟨st2, stack2, res2⟩
      rw [hstep] at hrun
      obtain ⟨hinv2, hg0, hg1, hyld2⟩ :=
        vf2Step_inv nm em sub st f rest st2 stack2 res2 hinv hstep
      cases res2 with
      | some r =>
        injection hrun with h
        injection h with h1 h23
        injection h23 with h2 h3
        subst h1; subst h2; subst h3
        refine ⟨hinv2, hg0, hg1, ?_⟩
        intro r' hr'
        injection hr' with hr'
        subst hr'
        exact hyld2 _ rfl
      | none =>
        obtain ⟨hinv', hg0', hg1', hyld'⟩ := ih st2 stack2 res st' stack' hinv2 hrun
        refine ⟨hinv', hg0'.trans hg0, hg1'.trans hg1, ?_⟩
        intro r hr
        have hy := hyld' r hr
        rw [hg0, hg1] at hy
        exact hy

/-- A freshly constructed matcher satisfies the matcher invariant (for graphs
whose node counts are representable, as all real graphs are). -/
theorem MatcherInv_new (g0 g1 : Graph) (sub : Bool)
    (h0 : g0.n < usizeMAX) (h1 : g1.n < usizeMAX) :
    MatcherInv (GraphMatcher.new g0 g1 sub) := by
  have hlen0 : (Vf2State.new g0).mapping.length = (Vf2State.new g0).graph.n := by
    simp [Vf2State.new]
  have hlen1 : (Vf2State.new g1).mapping.length = (Vf2State.new g1).graph.n := by
    simp [Vf2State.new]
  have hfresh0 : ∀ i, i < (Vf2State.new g0).mapping.length →
      (Vf2State.new g0).mapping.getD i 0 = usizeMAX := by
    intro i hi
    have hi2 : i < (List.replicate g0.n usizeMAX).length := hi
    rw [List.length_replicate] at hi2
    exact getD_replicate g0.n usizeMAX i hi2
  constructor
  · refine ⟨⟨hlen0, hlen1, h0, h1, ⟨?_, ?_⟩, ?_⟩, ?_, ?_, ?_⟩
    · intro i hi hne
      exact absurd (hfresh0 i hi) hne
    · intro j hj hne
      have hj2 : j < (List.replicate g1.n usizeMAX).length := hj
      rw [List.length_replicate] at hj2
      have hval : (List.replicate g1.n usizeMAX).getD j 0 = usizeMAX :=
        getD_replicate g1.n usizeMAX j hj2
      exact absurd hval hne
    · exact (countNonMax_replicate g0.n).symm
    · intro a b ol hmem
      rcases List.mem_cons.mp hmem with heq | hmem2
      · exact absurd heq (fun hx => Frame.noConfusion hx)
      · exact absurd hmem2 (List.not_mem_nil _)
    · exact List.nodup_nil
    · intro nodes ol hmem
      exact absurd hmem (List.not_mem_nil _)
  · intro r hr
    have hr' : (if (Vf2State.new g0).is_complete then
        some (some (Vf2State.new g0).mapping) else none) = some (some r) := hr
    by_cases hcomp : (Vf2State.new g0).is_complete = true
    · rw [if_pos hcomp] at hr'
      injection hr' with hr'
      injection hr' with hr'
      subst hr'
      rw [Vf2State.is_complete] at hcomp
      have hgen0 : (Vf2State.new g0).generation = 0 := rfl
      have hz : (Vf2State.new g0).mapping.length = 0 := by
        have hq : (Vf2State.new g0).generation = (Vf2State.new g0).mapping.length := by
          simpa using hcomp
        rw [hgen0] at hq
        exact hq.symm
      have hg : g0.n = 0 := by
        have hq : (Vf2State.new g0).graph.n = 0 := by rw [← hlen0]; exact hz
        exact hq
      refine ⟨?_, ?_, ?_⟩
      · rw [hz]
        exact hg.symm
      · intro i hi
        rw [hz] at hi
        omega
      · intro i j hi hj _
        rw [hz] at hi
        omega
    · rw [if_neg hcomp] at hr'
      exact absurd hr' Option.noConfusion

/-- C8: under the matcher invariant — established by construction for every
real query — every mapping yielded by a `next` call is an injection into
`g1`: it has length `g0.node_count`, all entries below `g1.node_count`, and
no two entries equal; and the invariant is maintained for the following
calls, so this holds for every yielded mapping of the iterator (hence for
everything `subgraph_isomorphisms_iter` produces). -/
theorem c8_yield_injective (nm : NodeM) (em : EdgeM) (fuel : Nat) (ms : MatcherSt)
    (hinv : MatcherInv ms) :
    ∀ res ms', GraphMatcher.next fuel nm em ms = some (res, ms') →
      MatcherInv ms' ∧ ∀ r, res = some r →
        YieldOk ms.st.1.graph ms.st.2.graph r := by
  intro res ms' hrun
  rw [GraphMatcher.next] at hrun
  cases hov : ms.iter_override with
  | some ov =>
    rw [hov] at hrun
    injection hrun with h
    injection h with h1 h2
    subst h1; subst h2
    refine ⟨⟨hinv.1, ?_⟩, ?_⟩
    · intro r hr
      have hr' : (some none : Option (Option (List Nat))) = some (some r) := hr
      injection hr' with hr'
      exact absurd hr' Option.noConfusion
    · intro r hr
      exact hinv.2 r (hov.trans (congrArg some hr))
  | none =>
    rw [hov] at hrun
    rcases hloop : vf2Loop nm em ms.match_subgraph fuel ms.st ms.stack with _ | ⟨res2, st2, stack2⟩
    · rw [hloop] at hrun
      exact absurd hrun Option.noConfusion
    · rw [hloop] at hrun
      simp only [Option.map_some'] at hrun
      injection hrun with h
      injection h with h1 h2
      subst h1; subst h2
      obtain ⟨hinv2, _, _, hyld⟩ := vf2Loop_inv nm em ms.match_subgraph fuel ms.st ms.stack
        res2 st2 stack2 hinv.1 hloop
      refine ⟨⟨hinv2, ?_⟩, hyld⟩
      intro r hr
      have hr' : (none : Option (Option (List Nat))) = some (some r) := hr
      exact absurd hr' Option.noConfusion

/-- Witness for C8 at a concrete input: the identity automorphism of the
1-node graph is yielded and is a valid injection. -/
theorem c8_yield_injective_witness : YieldOk (gN 1) (gN 1) [0] :=
  (c8_yield_injective noSemanticNM noSemanticEM 5 (GraphMatcher.new (gN 1) (gN 1) true)
    (MatcherInv_new (gN 1) (gN 1) true (by decide) (by decide))
    (some [0])
    ⟨(⟨gN 1, [0], [0], [], 0, 0, 1⟩, ⟨gN 1, [0], [0], [], 0, 0, 1⟩), true,
      [Frame.Outer, Frame.Unwind (0, 0) OpenList.Other], none⟩
    (by decide)).2 [0] rfl

/-- Witness for C10 at a concrete input: a matcher whose search space is
exhausted keeps yielding nothing. -/
theorem c10_next_fused_witness :
    GraphMatcher.next 0 noSemanticNM noSemanticEM
      { GraphMatcher.new (gN 1) (gN 0) false with st := (Vf2State.new (gN 1), Vf2State.new (gN 0)), stack := [] } =
      some (none,
        { GraphMatcher.new (gN 1) (gN 0) false with st := (Vf2State.new (gN 1), Vf2State.new (gN 0)), stack := [] }) := by
  have h := c10_next_fused noSemanticNM noSemanticEM 1
    (GraphMatcher.new (gN 1) (gN 0) false)
    { GraphMatcher.new (gN 1) (gN 0) false with st := (Vf2State.new (gN 1), Vf2State.new (gN 0)), stack := [] }
    (by decide) 0
  exact h

end Vf2
